import Mathlib

/-!
# CompressionContextPool

A shallow embedding of `folly/compression/CompressionContextPool.h`.

* A `T*` is an `Option Nat`: `none` is `nullptr`, `some a` points at the
  resource at address `a`.  A `Pool*` is modelled the same way.
* `Creator` and `Deleter` are template parameters of the class.  A Creator is
  modelled by the sequence of pointers its successive invocations return; a
  Deleter is modelled by a tag that identifies the callable, and invoking it is
  recorded in the trace.
* `std::vector<InternalRef>` is a `List`, whose last element is `back()`.
* Every lock operation on `stack_` and every invocation of the Creator or of a
  Deleter is appended to the trace of the `World`.
-/

namespace folly.compression

/-- The template parameter `Creator`: the pointer returned by the `n`-th invocation. -/
abbrev Creator := Nat → Option Nat

/-- The template parameter `Deleter`: a tag identifying the callable. -/
abbrev Deleter := Nat

/-- Observable effects, in program order. -/
inductive Event where
  /-- Exclusive lock on `stack_` taken. -/
  | wlock
  /-- Exclusive lock on `stack_` dropped. -/
  | wunlock
  /-- Shared lock on `stack_` taken. -/
  | rlock
  /-- Shared lock on `stack_` dropped. -/
  | runlock
  /-- One invocation `creator_()` that returned `ret`. -/
  | creator (ret : Option Nat)
  /-- One invocation of the deleter `d` on the resource at address `t`. -/
  | deleter (d : Deleter) (t : Nat)
  deriving DecidableEq, Repr

/-- Line 30: `using InternalRef = std::unique_ptr<T, Deleter>`. -/
structure InternalRef where
  ptr : Option Nat
  deleter : Deleter
  deriving DecidableEq, Repr

/-- Lines 32-49: the members `pool_` and `deleter_` set by the constructor of line 36. -/
structure ReturnToPoolDeleter where
  pool_ : Option Nat
  deleter_ : Deleter
  deriving DecidableEq, Repr

/-- Line 53: `using Ref = std::unique_ptr<T, ReturnToPoolDeleter>`. -/
structure Ref where
  ptr : Option Nat
  deleter : ReturnToPoolDeleter
  deriving DecidableEq, Repr

/-- Lines 84-87: the data members of the class. -/
structure CompressionContextPool where
  creator_ : Creator
  deleter_ : Deleter
  stack_ : List InternalRef

/-- Lines 55-58: the constructor stores both strategies; `stack_` starts empty. -/
def CompressionContextPool.new (creator : Creator) (deleter : Deleter) :
    CompressionContextPool :=
  { creator_ := creator, deleter_ := deleter, stack_ := [] }

/-- The memory the program works on: one pool object living at address `addr`,
the number of invocations of its Creator so far, and the trace of effects. -/
structure World where
  addr : Nat
  pool : Option CompressionContextPool
  creatorCalls : Nat
  trace : List Event

/-- What cannot be continued from: a member call through a pointer to a pool
that no longer exists, or a failed `DCHECK`. -/
inductive Fault where
  | danglingPool
  | dcheck
  deriving DecidableEq, Repr

/-- What `get` hands to its caller: a `Ref`, or the exception `std::bad_alloc`. -/
inductive GetResult where
  | ref (r : Ref)
  | bad_alloc
  deriving DecidableEq, Repr

/-- A pool constructed at address `addr`; nothing has happened yet. -/
def World.init (addr : Nat) (creator : Creator) (deleter : Deleter) : World :=
  { addr := addr, pool := some (CompressionContextPool.new creator deleter),
    creatorCalls := 0, trace := [] }

/-- Destructor of an `InternalRef`: the deleter runs on a non-null pointer only. -/
def InternalRef.destroy (r : InternalRef) (tr : List Event) : List Event :=
  match r.ptr with
  | none => tr
  | some t => tr ++ [Event.deleter r.deleter t]

/-- Lines 60-72, `get()` called on the pool of `w`.  The write lock is taken on
line 61 and dropped when `stack` goes out of scope, on return or on throw. -/
def get (w : World) : Except Fault (GetResult × World) :=
  match w.pool with
  | none => .error .danglingPool
  | some p =>
    match p.stack_.getLast? with
    | none =>
      -- `stack->empty()`
      let t := p.creator_ w.creatorCalls
      let w1 : World :=
        { w with creatorCalls := w.creatorCalls + 1,
                 trace := w.trace ++ [Event.wlock, Event.creator t, Event.wunlock] }
      match t with
      | none => .ok (GetResult.bad_alloc, w1)
      | some a => .ok (GetResult.ref ⟨some a, ⟨some w.addr, p.deleter_⟩⟩, w1)
    | some back =>
      -- `std::move(stack->back())`, `pop_back()`, `ptr.release()`
      .ok (GetResult.ref ⟨back.ptr, ⟨some w.addr, p.deleter_⟩⟩,
           { w with pool := some { p with stack_ := p.stack_.dropLast },
                    trace := w.trace ++ [Event.wlock, Event.wunlock] })

/-- Lines 74-76, `size()`. -/
def size (w : World) : Except Fault (Nat × World) :=
  match w.pool with
  | none => .error .danglingPool
  | some p =>
    .ok (p.stack_.length, { w with trace := w.trace ++ [Event.rlock, Event.runlock] })

/-- Lines 79-82, `add(ptr)` called through the pool pointer `a`.  A call through
a pointer to anything but the live pool cannot be continued from.  `DCHECK(ptr)`
stops the program on a null `ptr` (its meaning in a build with checks on);
`stack_->push_back` holds the exclusive lock for the push. -/
def add (w : World) (a : Nat) (ptr : InternalRef) : Except Fault World :=
  if a = w.addr then
    match w.pool with
    | none => .error .danglingPool
    | some p =>
      match ptr.ptr with
      | none => .error .dcheck
      | some _ =>
        .ok { w with pool := some { p with stack_ := p.stack_ ++ [ptr] },
                     trace := w.trace ++ [Event.wlock, Event.wunlock] }
  else .error .danglingPool

/-- Lines 39-44, `ReturnToPoolDeleter::operator()(t)`.  After `add` the local
`ptr` has been moved from, so its destructor does nothing; when `pool_` is null
the destructor of `ptr` runs `deleter_` on `t`. -/
def ReturnToPoolDeleter.call (d : ReturnToPoolDeleter) (t : Option Nat) (w : World) :
    Except Fault World :=
  let ptr : InternalRef := ⟨t, d.deleter_⟩
  match d.pool_ with
  | some a => add w a ptr
  | none => .ok { w with trace := ptr.destroy w.trace }

/-- Destructor of a `Ref` (a Lease ends): `std::unique_ptr` calls its deleter on
a non-null pointer only. -/
def Ref.destroy (r : Ref) (w : World) : Except Fault World :=
  match r.ptr with
  | none => .ok w
  | some t => r.deleter.call (some t) w

/-- The implicit destructor of the pool: `stack_` is destroyed, which destroys
every `InternalRef` in it (taken here in index order), and the object is gone. -/
def destroyPool (w : World) : Except Fault World :=
  match w.pool with
  | none => .error .danglingPool
  | some p =>
    .ok { w with pool := none,
                 trace := p.stack_.foldl (fun tr e => e.destroy tr) w.trace }

/-- The program together with its callers: `leases` are the `Ref`s held by
callers, `returning` are the `Ref`s whose destructor has started (line 40 has
run) but has not yet called `add`.  Such a `Ref` still exists and still holds
its pointer until its deleter returns. -/
structure System where
  world : World
  leases : List Ref
  returning : List Ref

/-- A pool constructed at `addr` and no Lease handed out. -/
def System.init (addr : Nat) (creator : Creator) (deleter : Deleter) : System :=
  { world := World.init addr creator deleter, leases := [], returning := [] }

/-- What a caller can do.  `get` and `size` hold the lock on `stack_` for their
whole body, so each is one atomic step.  `release i` ends the `i`-th Lease in
one go; `releaseBegin i` and `releaseEnd j` are its two halves (before and from
the call of `add`), between which other callers may run. -/
inductive Op where
  | get
  | release (i : Nat)
  | releaseBegin (i : Nat)
  | releaseEnd (j : Nat)
  | size
  | destroy
  deriving DecidableEq, Repr

/-- First half of ending the `i`-th Lease: its destructor starts. -/
def releaseBegin (s : System) (i : Nat) : System :=
  match s.leases[i]? with
  | none => s
  | some r => { s with leases := s.leases.eraseIdx i, returning := s.returning ++ [r] }

/-- Second half of ending a Lease: the `j`-th started destructor runs to its end. -/
def releaseEnd (s : System) (j : Nat) : Except Fault System :=
  match s.returning[j]? with
  | none => .ok s
  | some r =>
    match r.destroy s.world with
    | .ok w => .ok { s with world := w, returning := s.returning.eraseIdx j }
    | .error f => .error f

/-- One operation of a caller. -/
def step (s : System) : Op → Except Fault System
  | .get =>
    match get s.world with
    | .ok (GetResult.ref r, w) => .ok { s with world := w, leases := s.leases ++ [r] }
    | .ok (GetResult.bad_alloc, w) => .ok { s with world := w }
    | .error f => .error f
  | .release i =>
    match s.leases[i]? with
    | none => .ok s
    | some _ => releaseEnd (releaseBegin s i) s.returning.length
  | .releaseBegin i => .ok (releaseBegin s i)
  | .releaseEnd j => releaseEnd s j
  | .size =>
    match size s.world with
    | .ok (_, w) => .ok { s with world := w }
    | .error f => .error f
  | .destroy =>
    match destroyPool s.world with
    | .ok w => .ok { s with world := w }
    | .error f => .error f

/-- A sequence of operations, stopping at the first fault. -/
def run (s : System) : List Op → Except Fault System
  | [] => .ok s
  | op :: ops =>
    match step s op with
    | .ok s1 => run s1 ops
    | .error f => .error f

/-- Operations on a pool that stays alive: the pool is never destroyed. -/
def liveOps (ops : List Op) : Prop := Op.destroy ∉ ops

instance (ops : List Op) : Decidable (liveOps ops) := by
  unfold liveOps; infer_instance

/-- The idle collection of the pool, empty when the pool is gone. -/
def idle (w : World) : List InternalRef :=
  match w.pool with
  | none => []
  | some p => p.stack_

/-- Leases that exist: held by a caller, or in the middle of their destructor. -/
def outstanding (s : System) : List Ref := s.leases ++ s.returning

/-- Every resource pointer that some owner holds. -/
def owned (s : System) : List (Option Nat) :=
  (outstanding s).map Ref.ptr ++ (idle s.world).map InternalRef.ptr

/-- Number of invocations of the Creator that returned a resource. -/
def successfulCreations (tr : List Event) : Nat :=
  tr.countP (fun e => match e with | Event.creator (some _) => true | _ => false)

/-- Number of invocations of any Deleter. -/
def disposals (tr : List Event) : Nat :=
  tr.countP (fun e => match e with | Event.deleter _ _ => true | _ => false)

/-- Should the next `get` invoke the Creator, it returns null or a pointer that
no owner holds at that moment. -/
def creatorFresh (s : System) : Prop :=
  match s.world.pool with
  | none => True
  | some p =>
    p.stack_ ≠ [] ∨ p.creator_ s.world.creatorCalls = none ∨
      p.creator_ s.world.creatorCalls ∉ owned s

instance (s : System) : Decidable (creatorFresh s) := by
  unfold creatorFresh; split <;> infer_instance

/-- Along the run, the Creator is fresh at every `get`. -/
def freshRun (s : System) : List Op → Bool
  | [] => true
  | op :: ops =>
    (op != Op.get || decide (creatorFresh s)) &&
      match step s op with
      | .ok s1 => freshRun s1 ops
      | .error _ => true

/-- The largest number of Leases that exist at the same moment, over all the
states the run goes through. -/
def highWater (s : System) : List Op → Nat
  | [] => (outstanding s).length
  | op :: ops =>
    max (outstanding s).length
      (match step s op with
       | .ok s1 => highWater s1 ops
       | .error _ => 0)

/-- A pool with two idle resources, used to instantiate the theorems. -/
def demoPool : CompressionContextPool :=
  { creator_ := fun n => some (100 + n), deleter_ := 3,
    stack_ := [⟨some 5, 3⟩, ⟨some 6, 3⟩] }

/-- A world in which `demoPool` lives at address 1. -/
def demoWorld : World :=
  { addr := 1, pool := some demoPool, creatorCalls := 2, trace := [] }

/-- States of a live pool in which every owner holds a real resource: the pool
exists, no idle entry is null, and every Lease wraps a non-null pointer and
refers back to the pool of this world. -/
def Inv (s : System) : Prop :=
  (∃ p, s.world.pool = some p) ∧
  (∀ e ∈ idle s.world, e.ptr ≠ none) ∧
  (∀ r ∈ outstanding s, r.ptr ≠ none ∧ r.deleter.pool_ = some s.world.addr)

/-- The owned pointers are only moved between owners: nothing is created. -/
def Shuffled (s s1 : System) : Prop :=
  (owned s1).Perm (owned s) ∧
    (outstanding s1).length + (idle s1.world).length =
      (outstanding s).length + (idle s.world).length ∧
    successfulCreations s1.world.trace = successfulCreations s.world.trace

/-- The idle collection was empty and stays empty, and one pointer returned by
the Creator joins the Leases. -/
def Created (s s1 : System) : Prop :=
  idle s.world = [] ∧ idle s1.world = [] ∧
    (outstanding s1).length = (outstanding s).length + 1 ∧
    successfulCreations s1.world.trace = successfulCreations s.world.trace + 1 ∧
    ∃ p a, s.world.pool = some p ∧ p.creator_ s.world.creatorCalls = some a ∧
      (owned s1).Perm (some a :: owned s)

/-- How one operation changes who owns what. -/
def Moved (s s1 : System) : Prop := Shuffled s s1 ∨ Created s s1

/-- What every operation other than `destroy` keeps or establishes. -/
def Kept (s s1 : System) : Prop :=
  Inv s1 ∧ Moved s s1 ∧ disposals s1.world.trace = disposals s.world.trace ∧
    s1.world.addr = s.world.addr

/-- What the operations that create nothing keep. -/
def KeptShuffled (s s1 : System) : Prop :=
  Inv s1 ∧ Shuffled s s1 ∧ disposals s1.world.trace = disposals s.world.trace ∧
    s1.world.addr = s.world.addr

/-- Whether the exclusive lock on `stack_` is held after the events `tr`, when
it is held or not at their start according to `held`. -/
def heldAfter (held : Bool) : List Event → Bool
  | [] => held
  | Event.wlock :: tr => heldAfter true tr
  | Event.wunlock :: tr => heldAfter false tr
  | _ :: tr => heldAfter held tr

/-- Some invocation of the Creator in `tr` happens while the exclusive lock on
`stack_` is held. -/
def creatorUnderLock (held : Bool) : List Event → Bool
  | [] => false
  | Event.wlock :: tr => creatorUnderLock true tr
  | Event.wunlock :: tr => creatorUnderLock false tr
  | Event.creator _ :: tr => held || creatorUnderLock held tr
  | _ :: tr => creatorUnderLock held tr

/-- Some invocation of the Creator in `tr` happens while the exclusive lock on
`stack_` is not held. -/
def creatorOutsideLock (held : Bool) : List Event → Bool
  | [] => false
  | Event.wlock :: tr => creatorOutsideLock true tr
  | Event.wunlock :: tr => creatorOutsideLock false tr
  | Event.creator _ :: tr => !held || creatorOutsideLock held tr
  | _ :: tr => creatorOutsideLock held tr

/-- Some invocation of a Deleter in `tr` happens while the exclusive lock on
`stack_` is held. -/
def deleterUnderLock (held : Bool) : List Event → Bool
  | [] => false
  | Event.wlock :: tr => deleterUnderLock true tr
  | Event.wunlock :: tr => deleterUnderLock false tr
  | Event.deleter _ _ :: tr => held || deleterUnderLock held tr
  | _ :: tr => deleterUnderLock held tr

/-- The lock discipline the code follows on a stretch of events that starts
with the lock free: the lock is free again at the end, no Deleter runs under
the lock, and the Creator runs under the lock only. -/
def WellLocked (tr : List Event) : Prop :=
  heldAfter false tr = false ∧ deleterUnderLock false tr = false ∧
    creatorOutsideLock false tr = false

/-- The Deleter invocations made by the destruction of the entries of a
`std::vector<InternalRef>`, one for each non-null entry. -/
def teardownEvents (stack : List InternalRef) : List Event :=
  stack.filterMap (fun e => e.ptr.map (Event.deleter e.deleter))

/-- Every idle entry and every Lease carries a copy of the Deleter `d` of the
pool. -/
def DeleterInv (d : Deleter) (s : System) : Prop :=
  (∀ p, s.world.pool = some p → p.deleter_ = d) ∧
  (∀ e ∈ idle s.world, e.deleter = d) ∧
  (∀ r ∈ outstanding s, r.deleter.deleter_ = d)

/-! ## Auxiliary facts -/

theorem perm_eraseIdx {α : Type} (l : List α) (i : Nat) (r : α) (h : l[i]? = some r) :
    l.Perm (r :: l.eraseIdx i) := by
  induction l generalizing i with
  | nil => simp at h
  | cons x xs ih =>
    cases i with
    | zero =>
      simp at h
      subst h
      simp
    | succ k =>
      simp at h
      have h1 := ih k h
      simp only [List.eraseIdx_cons_succ]
      exact (List.Perm.cons x h1).trans (List.Perm.swap r x _)

theorem mem_of_getElem?_eq {α : Type} (l : List α) (i : Nat) (r : α) (h : l[i]? = some r) :
    r ∈ l := by
  rw [List.getElem?_eq_some] at h
  obtain ⟨hi, rfl⟩ := h
  exact List.getElem_mem hi

theorem mem_of_mem_eraseIdx {α : Type} (l : List α) (i : Nat) (x : α)
    (h : x ∈ l.eraseIdx i) : x ∈ l :=
  (List.eraseIdx_sublist l i).subset h

theorem stack_eq_dropLast_append (l : List InternalRef) (e : InternalRef)
    (h : l.getLast? = some e) : l = l.dropLast ++ [e] := by
  have h1 : l ≠ [] := by
    intro h2
    simp [h2] at h
  have h2 := List.dropLast_append_getLast h1
  rw [List.getLast?_eq_getLast l h1] at h
  simp only [Option.some.injEq] at h
  rw [h] at h2
  exact h2.symm

theorem get_of_back (w : World) (p : CompressionContextPool) (rest : List InternalRef)
    (e : InternalRef) (hp : w.pool = some p) (hs : p.stack_ = rest ++ [e]) :
    get w = .ok (GetResult.ref ⟨e.ptr, ⟨some w.addr, p.deleter_⟩⟩,
      { w with pool := some { p with stack_ := rest },
               trace := w.trace ++ [Event.wlock, Event.wunlock] }) := by
  simp [get, hp, hs]

theorem get_of_empty_some (w : World) (p : CompressionContextPool) (a : Nat)
    (hp : w.pool = some p) (hs : p.stack_ = [])
    (hc : p.creator_ w.creatorCalls = some a) :
    get w = .ok (GetResult.ref ⟨some a, ⟨some w.addr, p.deleter_⟩⟩,
      { w with creatorCalls := w.creatorCalls + 1,
               trace := w.trace ++ [Event.wlock, Event.creator (some a), Event.wunlock] }) := by
  simp [get, hp, hs, hc]

theorem get_of_empty_none (w : World) (p : CompressionContextPool)
    (hp : w.pool = some p) (hs : p.stack_ = [])
    (hc : p.creator_ w.creatorCalls = none) :
    get w = .ok (GetResult.bad_alloc,
      { w with creatorCalls := w.creatorCalls + 1,
               trace := w.trace ++ [Event.wlock, Event.creator none, Event.wunlock] }) := by
  simp [get, hp, hs, hc]

theorem destroy_of_live (w : World) (p : CompressionContextPool) (r : Ref) (t : Nat)
    (hp : w.pool = some p) (ht : r.ptr = some t) (hb : r.deleter.pool_ = some w.addr) :
    r.destroy w = .ok
      { w with pool := some { p with stack_ := p.stack_ ++ [⟨some t, r.deleter.deleter_⟩] },
               trace := w.trace ++ [Event.wlock, Event.wunlock] } := by
  simp [Ref.destroy, ReturnToPoolDeleter.call, add, hp, ht, hb]

theorem successfulCreations_append (a b : List Event) :
    successfulCreations (a ++ b) = successfulCreations a + successfulCreations b := by
  simp [successfulCreations, List.countP_append]

theorem disposals_append (a b : List Event) :
    disposals (a ++ b) = disposals a + disposals b := by
  simp [disposals, List.countP_append]

theorem step_get_kept (s : System) (h : Inv s) :
    ∃ s1, step s Op.get = .ok s1 ∧ Kept s s1 := by
  obtain ⟨⟨p, hp⟩, hidle, hout⟩ := h
  cases hl : p.stack_.getLast? with
  | none =>
    have hs : p.stack_ = [] := List.getLast?_eq_none_iff.mp hl
    cases hc : p.creator_ s.world.creatorCalls with
    | none =>
      refine ⟨_, by simp only [step, get_of_empty_none s.world p hp hs hc]; rfl, ?_⟩
      refine ⟨⟨⟨p, hp⟩, ?_, ?_⟩, Or.inl ⟨?_, ?_, ?_⟩, ?_, rfl⟩
      · simpa [idle, hp] using hidle
      · simpa [outstanding] using hout
      · simp [owned, outstanding, idle, hp]
      · simp [outstanding, idle, hp]
      · simp [successfulCreations_append, successfulCreations]
      · simp [disposals_append, disposals]
    | some a =>
      refine ⟨_, by simp only [step, get_of_empty_some s.world p a hp hs hc]; rfl, ?_⟩
      refine ⟨⟨⟨p, hp⟩, ?_, ?_⟩, Or.inr ⟨?_, ?_, ?_, ?_, p, a, hp, hc, ?_⟩, ?_, rfl⟩
      · simpa [idle, hp] using hidle
      · intro r hr
        simp only [outstanding, List.mem_append, List.mem_singleton] at hr
        rcases hr with (hr | hr) | hr
        · exact hout r (by simp [outstanding, hr])
        · subst hr; simp
        · exact hout r (by simp [outstanding, hr])
      · simp [idle, hp, hs]
      · simp [idle, hp, hs]
      · simp [outstanding]; omega
      · simp [successfulCreations_append, successfulCreations]
      · rw [List.perm_iff_count]
        intro x
        simp [owned, outstanding, idle, hp, hs, List.count_cons, List.count_append]
        omega
      · simp [disposals_append, disposals]
  | some e =>
    have hs := stack_eq_dropLast_append p.stack_ e hl
    refine ⟨_, by simp only [step, get_of_back s.world p _ e hp hs]; rfl, ?_⟩
    have he : e.ptr ≠ none := hidle e (by simp [idle, hp]; rw [hs]; simp)
    refine ⟨⟨⟨_, rfl⟩, ?_, ?_⟩, Or.inl ⟨?_, ?_, ?_⟩, ?_, rfl⟩
    · intro x hx
      apply hidle x
      simp only [idle] at hx
      simp only [idle, hp]
      exact List.mem_of_mem_dropLast hx
    · intro r hr
      simp only [outstanding, List.mem_append, List.mem_singleton] at hr
      rcases hr with (hr | hr) | hr
      · exact hout r (by simp [outstanding, hr])
      · subst hr; exact ⟨he, rfl⟩
      · exact hout r (by simp [outstanding, hr])
    · rw [List.perm_iff_count]
      intro x
      have h1 : (idle s.world) = p.stack_.dropLast ++ [e] := by simp only [idle, hp]; exact hs
      simp only [owned, h1]
      simp [outstanding, idle, List.count_cons, List.count_append]
      omega
    · have h1 : (idle s.world) = p.stack_.dropLast ++ [e] := by simp only [idle, hp]; exact hs
      rw [h1]
      simp [outstanding, idle]
      omega
    · simp [successfulCreations_append, successfulCreations]
    · simp [disposals_append, disposals]

theorem releaseBegin_kept (s : System) (i : Nat) (h : Inv s) :
    KeptShuffled s (releaseBegin s i) := by
  obtain ⟨⟨p, hp⟩, hidle, hout⟩ := h
  unfold releaseBegin
  cases hl : s.leases[i]? with
  | none =>
    exact ⟨⟨⟨p, hp⟩, hidle, hout⟩, ⟨List.Perm.refl _, rfl, rfl⟩, rfl, rfl⟩
  | some r =>
    have hperm := perm_eraseIdx s.leases i r hl
    refine ⟨⟨⟨p, hp⟩, hidle, ?_⟩, ⟨?_, ?_, rfl⟩, rfl, rfl⟩
    · intro x hx
      apply hout x
      simp only [outstanding, List.mem_append, List.mem_singleton] at hx ⊢
      rcases hx with hx | hx | hx
      · exact Or.inl (mem_of_mem_eraseIdx _ _ _ hx)
      · exact Or.inr hx
      · subst hx; exact Or.inl (mem_of_getElem?_eq _ _ _ hl)
    · rw [List.perm_iff_count]
      intro x
      have h1 := (List.perm_iff_count.mp (hperm.map Ref.ptr)) x
      simp only [List.map_cons, List.count_cons, beq_iff_eq] at h1
      simp [owned, outstanding, List.count_cons, List.count_append]
      omega
    · have h1 := hperm.length_eq
      simp only [List.length_cons] at h1
      simp [outstanding]
      omega

theorem releaseEnd_kept (s : System) (j : Nat) (h : Inv s) :
    ∃ s1, releaseEnd s j = .ok s1 ∧ KeptShuffled s s1 := by
  obtain ⟨⟨p, hp⟩, hidle, hout⟩ := h
  unfold releaseEnd
  cases hl : s.returning[j]? with
  | none =>
    exact ⟨s, rfl, ⟨⟨p, hp⟩, hidle, hout⟩, ⟨List.Perm.refl _, rfl, rfl⟩, rfl, rfl⟩
  | some r =>
    have hperm := perm_eraseIdx s.returning j r hl
    have hr : r ∈ outstanding s := by
      simp only [outstanding, List.mem_append]
      exact Or.inr (mem_of_getElem?_eq _ _ _ hl)
    obtain ⟨hnn, hb⟩ := hout r hr
    obtain ⟨t, ht⟩ := Option.ne_none_iff_exists'.mp hnn
    simp only [destroy_of_live s.world p r t hp ht hb]
    refine ⟨_, rfl, ⟨⟨_, rfl⟩, ?_, ?_⟩, ⟨?_, ?_, ?_⟩, ?_, rfl⟩
    · intro x hx
      simp only [idle, List.mem_append, List.mem_singleton] at hx
      rcases hx with hx | hx
      · exact hidle x (by simpa [idle, hp] using hx)
      · subst hx; simp
    · intro x hx
      apply hout x
      simp only [outstanding, List.mem_append] at hx ⊢
      rcases hx with hx | hx
      · exact Or.inl hx
      · exact Or.inr (mem_of_mem_eraseIdx _ _ _ hx)
    · rw [List.perm_iff_count]
      intro x
      have h1 := (List.perm_iff_count.mp (hperm.map Ref.ptr)) x
      simp only [List.map_cons, List.count_cons, ht, beq_iff_eq] at h1
      simp [owned, outstanding, idle, hp, List.count_cons, List.count_append]
      omega
    · have h1 := hperm.length_eq
      simp only [List.length_cons] at h1
      simp [outstanding, idle, hp]
      omega
    · simp [successfulCreations_append, successfulCreations]
    · simp [disposals_append, disposals]

theorem KeptShuffled.trans {s s1 s2 : System} (h1 : KeptShuffled s s1)
    (h2 : KeptShuffled s1 s2) : KeptShuffled s s2 :=
  ⟨h2.1, ⟨h2.2.1.1.trans h1.2.1.1, h2.2.1.2.1.trans h1.2.1.2.1,
      h2.2.1.2.2.trans h1.2.1.2.2⟩,
    h2.2.2.1.trans h1.2.2.1, h2.2.2.2.trans h1.2.2.2⟩

theorem KeptShuffled.kept {s s1 : System} (h : KeptShuffled s s1) : Kept s s1 :=
  ⟨h.1, Or.inl h.2.1, h.2.2.1, h.2.2.2⟩

theorem size_kept (s : System) (h : Inv s) :
    ∃ s1, step s Op.size = .ok s1 ∧ KeptShuffled s s1 := by
  obtain ⟨⟨p, hp⟩, hidle, hout⟩ := h
  refine ⟨{ s with world := { s.world with
      trace := s.world.trace ++ [Event.rlock, Event.runlock] } }, ?_, ?_⟩
  · simp [step, size, hp]
  · refine ⟨⟨⟨p, hp⟩, ?_, ?_⟩, ⟨?_, ?_, ?_⟩, ?_, rfl⟩
    · simpa [idle, hp] using hidle
    · simpa [outstanding] using hout
    · simp [owned, outstanding, idle, hp]
    · simp [outstanding, idle, hp]
    · simp [successfulCreations_append, successfulCreations]
    · simp [disposals_append, disposals]

theorem release_kept (s : System) (i : Nat) (h : Inv s) :
    ∃ s1, step s (Op.release i) = .ok s1 ∧ KeptShuffled s s1 := by
  simp only [step]
  cases hl : s.leases[i]? with
  | none =>
    exact ⟨s, rfl, h, ⟨List.Perm.refl _, rfl, rfl⟩, rfl, rfl⟩
  | some r =>
    have h1 := releaseBegin_kept s i h
    obtain ⟨s2, h2, h3⟩ := releaseEnd_kept (releaseBegin s i) s.returning.length h1.1
    exact ⟨s2, h2, h1.trans h3⟩

/-- Every operation other than `destroy` succeeds on a well-formed state of a
live pool and leads to such a state; only `get` can create. -/
theorem step_kept (s : System) (op : Op) (h : Inv s) (hop : op ≠ Op.destroy) :
    ∃ s1, step s op = .ok s1 ∧ Kept s s1 ∧ (op ≠ Op.get → Shuffled s s1) := by
  cases op with
  | get =>
    obtain ⟨s1, h1, h2⟩ := step_get_kept s h
    exact ⟨s1, h1, h2, fun hne => absurd rfl hne⟩
  | release i =>
    obtain ⟨s1, h1, h2⟩ := release_kept s i h
    exact ⟨s1, h1, h2.kept, fun _ => h2.2.1⟩
  | releaseBegin i =>
    exact ⟨_, rfl, (releaseBegin_kept s i h).kept, fun _ => (releaseBegin_kept s i h).2.1⟩
  | releaseEnd j =>
    obtain ⟨s1, h1, h2⟩ := releaseEnd_kept s j h
    exact ⟨s1, h1, h2.kept, fun _ => h2.2.1⟩
  | size =>
    obtain ⟨s1, h1, h2⟩ := size_kept s h
    exact ⟨s1, h1, h2.kept, fun _ => h2.2.1⟩
  | destroy => exact absurd rfl hop

theorem init_inv (addr : Nat) (creator : Creator) (deleter : Deleter) :
    Inv (System.init addr creator deleter) := by
  refine ⟨⟨_, rfl⟩, ?_, ?_⟩
  · intro e he
    simp [idle, System.init, World.init, CompressionContextPool.new] at he
  · intro r hr
    simp [outstanding, System.init] at hr

theorem highWater_ge (s : System) (ops : List Op) :
    (outstanding s).length ≤ highWater s ops := by
  cases ops with
  | nil => simp [highWater]
  | cons op ops => simp [highWater]

/-- The facts every run on a live pool keeps, from any well-formed state. -/
theorem run_kept (ops : List Op) :
    ∀ s : System, Inv s → liveOps ops →
      ∃ s1, run s ops = .ok s1 ∧ Inv s1 ∧
        disposals s1.world.trace = disposals s.world.trace ∧
        s1.world.addr = s.world.addr ∧
        (outstanding s1).length + (idle s1.world).length + successfulCreations s.world.trace =
          (outstanding s).length + (idle s.world).length + successfulCreations s1.world.trace ∧
        max ((outstanding s).length + (idle s.world).length) (highWater s ops) =
          (outstanding s1).length + (idle s1.world).length ∧
        (freshRun s ops = true → (owned s).Nodup → (owned s1).Nodup) := by
  induction ops with
  | nil =>
    intro s h _
    refine ⟨s, rfl, h, rfl, rfl, rfl, ?_, fun _ hn => hn⟩
    simp [highWater]
  | cons op ops ih =>
    intro s h hl
    have hop : op ≠ Op.destroy := by
      intro he
      apply hl
      simp [he]
    have hl1 : liveOps ops := by
      intro he
      apply hl
      simp [he]
    obtain ⟨s1, hstep, ⟨hinv, hmoved, hdisp, haddr⟩, hget⟩ := step_kept s op h hop
    obtain ⟨s2, hrun, hinv2, hdisp2, haddr2, hcons, hmax, hnodup⟩ := ih s1 hinv hl1
    have hge := highWater_ge s1 ops
    refine ⟨s2, ?_, hinv2, hdisp2.trans hdisp, haddr2.trans haddr, ?_, ?_, ?_⟩
    · simp only [run, hstep]
      exact hrun
    · rcases hmoved with ⟨_, hlen, hsc⟩ | ⟨hi, hi1, hlen, hsc, _⟩
      · omega
      · simp only [hi, hi1, List.length_nil] at hcons ⊢
        omega
    · simp only [highWater, hstep]
      rcases hmoved with ⟨_, hlen, hsc⟩ | ⟨hi, hi1, hlen, hsc, _⟩
      · omega
      · simp only [hi, hi1, List.length_nil] at hmax ⊢
        omega
    · intro hfresh hn
      simp only [freshRun, hstep, Bool.and_eq_true, Bool.or_eq_true, bne_iff_ne, ne_eq,
        decide_eq_true_eq] at hfresh
      apply hnodup hfresh.2
      rcases hmoved with ⟨hperm, _, _⟩ | ⟨hi, _, _, hsc, p, a, hp, hc, hperm⟩
      · exact hperm.nodup_iff.mpr hn
      · have hg : op = Op.get := by
          by_contra hne
          have := (hget hne).2.2
          omega
        have hf : creatorFresh s := by
          rcases hfresh.1 with hf | hf
          · exact absurd hg hf
          · exact hf
        simp only [creatorFresh, hp] at hf
        have hs : p.stack_ = [] := by simpa [idle, hp] using hi
        have hnot : some a ∉ owned s := by
          rcases hf with hf | hf | hf
          · exact absurd hs hf
          · rw [hc] at hf; cases hf
          · rw [hc] at hf; exact hf
        exact hperm.nodup_iff.mpr (List.nodup_cons.mpr ⟨hnot, hn⟩)

theorem release_step_eq (s : System) (i : Nat) (r : Ref) (p : CompressionContextPool)
    (t : Nat) (hl : s.leases[i]? = some r) (hp : s.world.pool = some p)
    (ht : r.ptr = some t) (hb : r.deleter.pool_ = some s.world.addr) :
    step s (Op.release i) = .ok
      { world := { s.world with
          pool := some { p with stack_ := p.stack_ ++ [⟨some t, r.deleter.deleter_⟩] },
          trace := s.world.trace ++ [Event.wlock, Event.wunlock] },
        leases := s.leases.eraseIdx i, returning := s.returning } := by
  have h1 : (s.returning ++ [r])[s.returning.length]? = some r := by simp
  have h2 : (s.returning ++ [r]).eraseIdx s.returning.length = s.returning := by
    rw [List.eraseIdx_append_of_length_le (Nat.le_refl _)]
    simp
  simp only [step, hl, releaseBegin, releaseEnd, h1, h2,
    destroy_of_live s.world p r t hp ht hb]

theorem not_mem_of_disposals_eq_zero (tr : List Event) (h : disposals tr = 0)
    (d : Deleter) (t : Nat) : Event.deleter d t ∉ tr := by
  intro hm
  have h1 := List.countP_eq_zero.mp h (Event.deleter d t) hm
  simp at h1

/-! ## The claims -/

/-- C1. On a pool whose idle collection is not empty, `get` succeeds and does
not invoke the Creator (the call counter and the trace show no invocation); the
Lease it returns wraps the pointer of an entry `e` that was in the idle
collection, and afterwards the idle collection is the old one with exactly that
entry removed: all other entries are kept, in place, and the size is one less. -/
theorem get_reuses_idle (w : World) (p : CompressionContextPool)
    (hp : w.pool = some p) (hne : p.stack_ ≠ []) :
    ∃ e rest w1,
      get w = .ok (GetResult.ref ⟨e.ptr, ⟨some w.addr, p.deleter_⟩⟩, w1) ∧
      e ∈ p.stack_ ∧ p.stack_ = rest ++ [e] ∧
      w1.pool = some { p with stack_ := rest } ∧
      rest.length + 1 = p.stack_.length ∧
      size w1 = .ok (p.stack_.length - 1,
        { w1 with trace := w1.trace ++ [Event.rlock, Event.runlock] }) ∧
      w1.creatorCalls = w.creatorCalls ∧
      w1.trace = w.trace ++ [Event.wlock, Event.wunlock] ∧
      successfulCreations w1.trace = successfulCreations w.trace := by
  have hl : p.stack_.getLast? = some (p.stack_.getLast hne) :=
    List.getLast?_eq_getLast p.stack_ hne
  have hs := stack_eq_dropLast_append p.stack_ _ hl
  refine ⟨p.stack_.getLast hne, p.stack_.dropLast, _,
    get_of_back w p _ _ hp hs, List.getLast_mem hne, hs, rfl, ?_, ?_, rfl, rfl, ?_⟩
  · conv => rhs; rw [hs]
    simp
  · simp [size]
  · simp [successfulCreations_append, successfulCreations]

theorem get_reuses_idle_witness :
    (demoWorld.pool = some demoPool ∧ demoPool.stack_ ≠ []) ∧
    ∃ e rest w1,
      get demoWorld = .ok (GetResult.ref ⟨e.ptr, ⟨some demoWorld.addr, demoPool.deleter_⟩⟩, w1) ∧
      e ∈ demoPool.stack_ ∧ demoPool.stack_ = rest ++ [e] ∧
      w1.pool = some { demoPool with stack_ := rest } ∧
      rest.length + 1 = demoPool.stack_.length ∧
      size w1 = .ok (demoPool.stack_.length - 1,
        { w1 with trace := w1.trace ++ [Event.rlock, Event.runlock] }) ∧
      w1.creatorCalls = demoWorld.creatorCalls ∧
      w1.trace = demoWorld.trace ++ [Event.wlock, Event.wunlock] ∧
      successfulCreations w1.trace = successfulCreations demoWorld.trace :=
  ⟨⟨rfl, by simp [demoPool]⟩, get_reuses_idle demoWorld demoPool rfl (by simp [demoPool])⟩

/-- C2. On a pool whose idle collection is empty, when the Creator returns
null, `get` throws `std::bad_alloc` and hands out no `Ref`; the pool object is
left as it was, its idle collection still empty, and `size()` still returns 0. -/
theorem get_bad_alloc_on_null (w : World) (p : CompressionContextPool)
    (hp : w.pool = some p) (hs : p.stack_ = [])
    (hc : p.creator_ w.creatorCalls = none) :
    ∃ w1, get w = .ok (GetResult.bad_alloc, w1) ∧
      w1.pool = w.pool ∧ idle w1 = [] ∧ idle w1 = idle w ∧
      w1.trace = w.trace ++ [Event.wlock, Event.creator none, Event.wunlock] ∧
      size w1 = .ok (0, { w1 with trace := w1.trace ++ [Event.rlock, Event.runlock] }) := by
  refine ⟨_, get_of_empty_none w p hp hs hc, rfl, ?_, ?_, rfl, ?_⟩
  · simp [idle, hp, hs]
  · simp [idle, hp]
  · simp [size, hp, hs]

theorem get_bad_alloc_on_null_witness :
    ∃ w1, get (World.init 1 (fun _ => none) 3) = .ok (GetResult.bad_alloc, w1) ∧
      w1.pool = (World.init 1 (fun _ => none) 3).pool ∧ idle w1 = [] :=
  let ⟨w1, h1, h2, h3, _⟩ :=
    get_bad_alloc_on_null (World.init 1 (fun _ => none) 3)
      (CompressionContextPool.new (fun _ => none) 3) rfl rfl rfl
  ⟨w1, h1, h2, h3⟩

/-- C3. In every state reached from a newly constructed pool by `get` and by the
end of Leases that `get` returned (the pool being alive), no entry of the idle
collection is null, no Lease wraps null, and a `get` that returns a `Ref`
returns one that wraps a non-null pointer. -/
theorem no_null_resource (addr : Nat) (creator : Creator) (deleter : Deleter)
    (ops : List Op) (hl : liveOps ops) :
    ∃ s, run (System.init addr creator deleter) ops = .ok s ∧
      (∀ e ∈ idle s.world, e.ptr ≠ none) ∧
      (∀ r ∈ outstanding s, r.ptr ≠ none) ∧
      (∃ res w1, get s.world = .ok (res, w1)) ∧
      (∀ r w1, get s.world = .ok (GetResult.ref r, w1) → r.ptr ≠ none) := by
  obtain ⟨s, hrun, hinv, _⟩ :=
    run_kept ops (System.init addr creator deleter) (init_inv addr creator deleter) hl
  obtain ⟨s1, hstep, hkept, _⟩ := step_get_kept s hinv
  refine ⟨s, hrun, hinv.2.1, fun r hr => (hinv.2.2 r hr).1, ?_, ?_⟩
  · cases hg : get s.world with
    | ok x => exact ⟨x.1, x.2, rfl⟩
    | error f => simp [step, hg] at hstep
  · intro r w1 hg
    simp only [step, hg, Except.ok.injEq] at hstep
    subst hstep
    exact (hkept.2.2 r (by simp [outstanding])).1

theorem no_null_resource_witness :
    liveOps [Op.get, Op.get, Op.release 0, Op.get] ∧
    ∃ s, run (System.init 1 (fun n => some (100 + n)) 3)
        [Op.get, Op.get, Op.release 0, Op.get] = .ok s ∧
      (∀ e ∈ idle s.world, e.ptr ≠ none) ∧
      (∀ r ∈ outstanding s, r.ptr ≠ none) ∧
      (∃ res w1, get s.world = .ok (res, w1)) ∧
      (∀ r w1, get s.world = .ok (GetResult.ref r, w1) → r.ptr ≠ none) :=
  ⟨by decide, no_null_resource 1 (fun n => some (100 + n)) 3
    [Op.get, Op.get, Op.release 0, Op.get] (by decide)⟩

/-- C4. Ending a Lease that wraps resource `t` and refers back to a live pool
hands `t` to `add`: afterwards `t` is in the idle collection, every entry that
was idle is still there, and `size()` is one more than before.  In particular,
on a pool with `n >= 1` idle resources, `get` followed by the end of the Lease it
returned gives `size() = n` again. -/
theorem release_adds_to_idle (w : World) (p : CompressionContextPool) (r : Ref) (t : Nat)
    (hp : w.pool = some p) (ht : r.ptr = some t) (hb : r.deleter.pool_ = some w.addr) :
    (∃ w1 p1, r.destroy w = .ok w1 ∧ w1.pool = some p1 ∧
      p1.stack_ = p.stack_ ++ [⟨some t, r.deleter.deleter_⟩] ∧
      (∃ e ∈ p1.stack_, e.ptr = some t) ∧
      (∀ e ∈ p.stack_, e ∈ p1.stack_) ∧
      size w1 = .ok (p.stack_.length + 1,
        { w1 with trace := w1.trace ++ [Event.rlock, Event.runlock] })) ∧
    (p.stack_ ≠ [] → (∀ e ∈ p.stack_, e.ptr ≠ none) →
      ∃ r1 w1 w2, get w = .ok (GetResult.ref r1, w1) ∧ r1.destroy w1 = .ok w2 ∧
        size w2 = .ok (p.stack_.length,
          { w2 with trace := w2.trace ++ [Event.rlock, Event.runlock] })) := by
  constructor
  · refine ⟨_, _, destroy_of_live w p r t hp ht hb, rfl, rfl, ?_, ?_, ?_⟩
    · exact ⟨⟨some t, r.deleter.deleter_⟩, by simp, rfl⟩
    · intro e he
      simp [he]
    · simp [size]
  · intro hne hnn
    have hl : p.stack_.getLast? = some (p.stack_.getLast hne) :=
      List.getLast?_eq_getLast p.stack_ hne
    have hs := stack_eq_dropLast_append p.stack_ _ hl
    obtain ⟨a, ha⟩ := Option.ne_none_iff_exists'.mp (hnn _ (List.getLast_mem hne))
    have hd := destroy_of_live
      { w with pool := some { p with stack_ := p.stack_.dropLast },
               trace := w.trace ++ [Event.wlock, Event.wunlock] }
      { p with stack_ := p.stack_.dropLast }
      ⟨(p.stack_.getLast hne).ptr, ⟨some w.addr, p.deleter_⟩⟩ a rfl ha rfl
    refine ⟨_, _, _, get_of_back w p _ _ hp hs, hd, ?_⟩
    have h1 : 0 < p.stack_.length := List.length_pos.mpr hne
    have h2 : p.stack_.length - 1 + 1 = p.stack_.length := by omega
    simp [size, h2]

theorem release_adds_to_idle_witness :
    (demoWorld.pool = some demoPool ∧
      (⟨some 7, ⟨some 1, 3⟩⟩ : Ref).ptr = some 7 ∧
      (⟨some 7, ⟨some 1, 3⟩⟩ : Ref).deleter.pool_ = some demoWorld.addr) ∧
    (∃ w1 p1, (⟨some 7, ⟨some 1, 3⟩⟩ : Ref).destroy demoWorld = .ok w1 ∧ w1.pool = some p1 ∧
      p1.stack_ = demoPool.stack_ ++ [⟨some 7, 3⟩] ∧
      (∃ e ∈ p1.stack_, e.ptr = some 7) ∧
      (∀ e ∈ demoPool.stack_, e ∈ p1.stack_) ∧
      size w1 = .ok (demoPool.stack_.length + 1,
        { w1 with trace := w1.trace ++ [Event.rlock, Event.runlock] })) ∧
    (demoPool.stack_ ≠ [] → (∀ e ∈ demoPool.stack_, e.ptr ≠ none) →
      ∃ r1 w1 w2, get demoWorld = .ok (GetResult.ref r1, w1) ∧ r1.destroy w1 = .ok w2 ∧
        size w2 = .ok (demoPool.stack_.length,
          { w2 with trace := w2.trace ++ [Event.rlock, Event.runlock] })) :=
  ⟨⟨rfl, rfl, rfl⟩, release_adds_to_idle demoWorld demoPool ⟨some 7, ⟨some 1, 3⟩⟩ 7 rfl rfl rfl⟩

/-- C5. Assume that whenever `get` invokes the Creator, the pointer returned is
not one that is idle or wrapped by a Lease at that moment.  Then after every
sequence of `get`, of Lease ends (in one go, or as two separate halves between
which other operations run) and of `size` on a newly constructed, live pool: no
two Leases wrap the same resource, the idle collection has no duplicate, and no
resource is both idle and wrapped by a Lease.  A Lease whose destructor has
started is a Lease until its `add` is done. -/
theorem no_double_ownership (addr : Nat) (creator : Creator) (deleter : Deleter)
    (ops : List Op) (hl : liveOps ops)
    (hf : freshRun (System.init addr creator deleter) ops = true) :
    ∃ s, run (System.init addr creator deleter) ops = .ok s ∧
      ((outstanding s).map Ref.ptr).Nodup ∧
      (s.leases.map Ref.ptr).Nodup ∧
      ((idle s.world).map InternalRef.ptr).Nodup ∧
      (∀ r ∈ outstanding s, ∀ e ∈ idle s.world, r.ptr ≠ e.ptr) := by
  obtain ⟨s, hrun, _, _, _, _, _, hnodup⟩ :=
    run_kept ops (System.init addr creator deleter) (init_inv addr creator deleter) hl
  have h0 : (owned (System.init addr creator deleter)).Nodup := by
    simp [owned, outstanding, idle, System.init, World.init, CompressionContextPool.new]
  have h1 := hnodup hf h0
  simp only [owned] at h1
  obtain ⟨h2, h3, h4⟩ := List.nodup_append.mp h1
  refine ⟨s, hrun, h2, ?_, h3, ?_⟩
  · simp only [outstanding, List.map_append] at h2
    exact (List.nodup_append.mp h2).1
  · intro r hr e he heq
    exact h4 (List.mem_map_of_mem Ref.ptr hr) (heq ▸ List.mem_map_of_mem InternalRef.ptr he)

theorem no_double_ownership_witness :
    (liveOps [Op.get, Op.get, Op.releaseBegin 0, Op.get, Op.releaseEnd 0, Op.release 0] ∧
      freshRun (System.init 1 (fun n => some (100 + n)) 3)
        [Op.get, Op.get, Op.releaseBegin 0, Op.get, Op.releaseEnd 0, Op.release 0] = true) ∧
    ∃ s, run (System.init 1 (fun n => some (100 + n)) 3)
        [Op.get, Op.get, Op.releaseBegin 0, Op.get, Op.releaseEnd 0, Op.release 0] = .ok s ∧
      ((outstanding s).map Ref.ptr).Nodup ∧
      (s.leases.map Ref.ptr).Nodup ∧
      ((idle s.world).map InternalRef.ptr).Nodup ∧
      (∀ r ∈ outstanding s, ∀ e ∈ idle s.world, r.ptr ≠ e.ptr) :=
  ⟨⟨by decide, by decide⟩, no_double_ownership 1 (fun n => some (100 + n)) 3
    [Op.get, Op.get, Op.releaseBegin 0, Op.get, Op.releaseEnd 0, Op.release 0]
    (by decide) (by decide)⟩

/-- C7. After every sequence of `get`, Lease ends and `size` on a newly
constructed, live pool, the number of invocations of the Creator that returned
a resource equals the largest number of Leases that existed at the same moment
during the run (a Lease exists until its destructor is done). -/
theorem creations_eq_high_water (addr : Nat) (creator : Creator) (deleter : Deleter)
    (ops : List Op) (hl : liveOps ops) :
    ∃ s, run (System.init addr creator deleter) ops = .ok s ∧
      successfulCreations s.world.trace = highWater (System.init addr creator deleter) ops := by
  obtain ⟨s, hrun, _, _, _, hcons, hmax, _⟩ :=
    run_kept ops (System.init addr creator deleter) (init_inv addr creator deleter) hl
  refine ⟨s, hrun, ?_⟩
  have h0 : (outstanding (System.init addr creator deleter)).length = 0 := by
    simp [outstanding, System.init]
  have h1 : (idle (System.init addr creator deleter).world).length = 0 := by
    simp [idle, System.init, World.init, CompressionContextPool.new]
  have h2 : successfulCreations (System.init addr creator deleter).world.trace = 0 := by
    simp [successfulCreations, System.init, World.init]
  rw [h0, h1, h2] at hcons
  rw [h0, h1] at hmax
  simp only [Nat.add_zero, Nat.zero_add] at hcons hmax
  have h3 : max 0 (highWater (System.init addr creator deleter) ops) =
      highWater (System.init addr creator deleter) ops := Nat.zero_max _
  omega

theorem creations_eq_high_water_witness :
    liveOps [Op.get, Op.get, Op.release 0, Op.get, Op.get, Op.size] ∧
    ∃ s, run (System.init 1 (fun n => some (100 + n)) 3)
        [Op.get, Op.get, Op.release 0, Op.get, Op.get, Op.size] = .ok s ∧
      successfulCreations s.world.trace =
        highWater (System.init 1 (fun n => some (100 + n)) 3)
          [Op.get, Op.get, Op.release 0, Op.get, Op.get, Op.size] :=
  ⟨by decide, creations_eq_high_water 1 (fun n => some (100 + n)) 3
    [Op.get, Op.get, Op.release 0, Op.get, Op.get, Op.size] (by decide)⟩

/-- C6, as stated, fails: after `get` and the destruction of the pool, the
Lease still holds the address of the pool as its back-reference (it is not
null), so ending the Lease calls `add` through a pointer to a pool that no
longer exists; the Deleter is not invoked. -/
theorem release_after_destroy_counterexample :
    ∃ s r, run (System.init 1 (fun n => some (100 + n)) 3) [Op.get, Op.destroy] = .ok s ∧
      s.world.pool = none ∧ s.leases = [r] ∧ r = ⟨some 100, ⟨some 1, 3⟩⟩ ∧
      r.destroy s.world = .error Fault.danglingPool ∧
      ¬ ∃ w1, r.destroy s.world = .ok w1 ∧
        w1.trace = s.world.trace ++ [Event.deleter 3 100] := by
  refine ⟨_, _, rfl, rfl, rfl, rfl, rfl, ?_⟩
  rintro ⟨w1, h, _⟩
  have h2 : (⟨some 100, ⟨some 1, 3⟩⟩ : Ref).destroy
      { addr := 1, pool := none, creatorCalls := 1,
        trace := [Event.wlock, Event.creator (some 100), Event.wunlock] } =
      .error Fault.danglingPool := rfl
  exact Except.noConfusion (h2.symm.trans h)

/-- C6, amended.  Ending a Lease whose back-reference `pool_` is null touches
no pool and invokes the Deleter copied into the Lease exactly once, on the
wrapped resource.  A Lease returned by `get` carries the address of its pool as
back-reference and a copy of the Deleter of the pool, and destroying the pool
changes no Lease. -/
theorem release_with_null_pool_disposes (w : World) (r : Ref) (t : Nat)
    (ht : r.ptr = some t) (hb : r.deleter.pool_ = none) :
    (∃ w1, r.destroy w = .ok w1 ∧ w1.pool = w.pool ∧ w1.creatorCalls = w.creatorCalls ∧
      w1.trace = w.trace ++ [Event.deleter r.deleter.deleter_ t] ∧
      disposals w1.trace = disposals w.trace + 1) ∧
    (∀ w0 p0 r0 w1, w0.pool = some p0 → get w0 = .ok (GetResult.ref r0, w1) →
      r0.deleter = ⟨some w0.addr, p0.deleter_⟩) ∧
    (∀ s s1, step s Op.destroy = .ok s1 →
      s1.leases = s.leases ∧ s1.returning = s.returning ∧ s1.world.pool = none) := by
  refine ⟨?_, ?_, ?_⟩
  · refine ⟨{ w with trace := w.trace ++ [Event.deleter r.deleter.deleter_ t] },
      ?_, rfl, rfl, rfl, ?_⟩
    · simp [Ref.destroy, ReturnToPoolDeleter.call, InternalRef.destroy, ht, hb]
    · simp [disposals_append, disposals]
  · intro w0 p0 r0 w1 hp hg
    cases hl : p0.stack_.getLast? with
    | none =>
      cases hc : p0.creator_ w0.creatorCalls with
      | none => simp [get, hp, hl, hc] at hg
      | some a =>
        simp [get, hp, hl, hc] at hg
        rw [← hg.1]
    | some e =>
      simp [get, hp, hl] at hg
      rw [← hg.1]
  · intro s s1 hs
    cases hp : s.world.pool with
    | none => simp [step, destroyPool, hp] at hs
    | some p =>
      simp [step, destroyPool, hp] at hs
      subst hs
      exact ⟨rfl, rfl, rfl⟩

theorem release_with_null_pool_disposes_witness :
    ((⟨some 7, ⟨none, 3⟩⟩ : Ref).ptr = some 7 ∧
      (⟨some 7, ⟨none, 3⟩⟩ : Ref).deleter.pool_ = none) ∧
    (∃ w1, (⟨some 7, ⟨none, 3⟩⟩ : Ref).destroy demoWorld = .ok w1 ∧
      w1.pool = demoWorld.pool ∧ w1.creatorCalls = demoWorld.creatorCalls ∧
      w1.trace = demoWorld.trace ++ [Event.deleter 3 7] ∧
      disposals w1.trace = disposals demoWorld.trace + 1) :=
  ⟨⟨rfl, rfl⟩,
    (release_with_null_pool_disposes demoWorld ⟨some 7, ⟨none, 3⟩⟩ 7 rfl rfl).1⟩

/-- C8. On a pool whose idle collection is empty, when the Creator returns a
non-null `a`, `get` invokes the Creator exactly once and returns a `Ref` that
wraps exactly `a`, whose deleter holds the address of this pool and a copy of
the Deleter of this pool; the idle collection stays empty.  And on every live
pool `get` returns, having invoked the Creator (once) if and only if the idle
collection was empty. -/
theorem get_creates_on_empty (w : World) (p : CompressionContextPool) (a : Nat)
    (hp : w.pool = some p) (hs : p.stack_ = [])
    (hc : p.creator_ w.creatorCalls = some a) :
    (∃ w1, get w = .ok (GetResult.ref ⟨some a, ⟨some w.addr, p.deleter_⟩⟩, w1) ∧
      w1.creatorCalls = w.creatorCalls + 1 ∧
      w1.trace = w.trace ++ [Event.wlock, Event.creator (some a), Event.wunlock] ∧
      successfulCreations w1.trace = successfulCreations w.trace + 1 ∧
      w1.pool = w.pool ∧ idle w1 = []) ∧
    (∀ w0 p0, w0.pool = some p0 →
      ∃ res w1, get w0 = .ok (res, w1) ∧
        (w1.creatorCalls = w0.creatorCalls + 1 ↔ p0.stack_ = []) ∧
        (w1.creatorCalls = w0.creatorCalls ↔ p0.stack_ ≠ []) ∧
        ((∃ c, Event.creator c ∈ w1.trace.drop w0.trace.length) ↔ p0.stack_ = [])) := by
  constructor
  · refine ⟨_, get_of_empty_some w p a hp hs hc, rfl, rfl, ?_, rfl, ?_⟩
    · simp [successfulCreations_append, successfulCreations]
    · simp [idle, hp, hs]
  · intro w0 p0 hp0
    cases hl : p0.stack_.getLast? with
    | none =>
      have hs0 : p0.stack_ = [] := List.getLast?_eq_none_iff.mp hl
      cases hc0 : p0.creator_ w0.creatorCalls with
      | none =>
        refine ⟨_, _, get_of_empty_none w0 p0 hp0 hs0 hc0, ?_, ?_, ?_⟩
        · simp [hs0]
        · simp [hs0]
        · simp [hs0]
      | some b =>
        refine ⟨_, _, get_of_empty_some w0 p0 b hp0 hs0 hc0, ?_, ?_, ?_⟩
        · simp [hs0]
        · simp [hs0]
        · simp [hs0]
    | some e =>
      have hs0 := stack_eq_dropLast_append p0.stack_ e hl
      have hne : p0.stack_ ≠ [] := by
        intro h
        simp [h] at hl
      refine ⟨_, _, get_of_back w0 p0 _ e hp0 hs0, ?_, ?_, ?_⟩
      · simp [hne]
      · simp [hne]
      · simp [hne]

theorem get_creates_on_empty_witness :
    ((World.init 1 (fun n => some (100 + n)) 3).pool =
        some (CompressionContextPool.new (fun n => some (100 + n)) 3) ∧
      (CompressionContextPool.new (fun n => some (100 + n)) 3).stack_ = [] ∧
      (CompressionContextPool.new (fun n => some (100 + n)) 3).creator_
        (World.init 1 (fun n => some (100 + n)) 3).creatorCalls = some 100) ∧
    ∃ w1, get (World.init 1 (fun n => some (100 + n)) 3) =
        .ok (GetResult.ref ⟨some 100, ⟨some 1, 3⟩⟩, w1) ∧
      w1.creatorCalls = 1 ∧
      w1.trace = [Event.wlock, Event.creator (some 100), Event.wunlock] ∧
      idle w1 = [] :=
  ⟨⟨rfl, rfl, rfl⟩,
    let ⟨w1, h1, h2, h3, _, _, h6⟩ :=
      (get_creates_on_empty (World.init 1 (fun n => some (100 + n)) 3)
        (CompressionContextPool.new (fun n => some (100 + n)) 3) 100 rfl rfl rfl).1
    ⟨w1, h1, h2, h3, h6⟩⟩

/-- C9. On every live pool `size()` returns, the value is the number of
entries of the idle collection (Leases are not part of it), and the pool, the
Creator and the Leases are left as they were; on a newly constructed pool the
value is 0. -/
theorem size_counts_idle (w : World) (p : CompressionContextPool) (hp : w.pool = some p) :
    (∃ w1, size w = .ok (p.stack_.length, w1) ∧ (idle w).length = p.stack_.length ∧
      w1.pool = w.pool ∧ w1.creatorCalls = w.creatorCalls ∧ w1.addr = w.addr ∧
      w1.trace = w.trace ++ [Event.rlock, Event.runlock]) ∧
    (∀ leases returning, ∃ s1, step ⟨w, leases, returning⟩ Op.size = .ok s1 ∧
      s1.leases = leases ∧ s1.returning = returning ∧ s1.world.pool = w.pool) ∧
    (∀ addr creator deleter, ∃ w1, size (World.init addr creator deleter) = .ok (0, w1)) := by
  refine ⟨⟨{ w with trace := w.trace ++ [Event.rlock, Event.runlock] },
    by simp [size, hp], by simp [idle, hp], rfl, rfl, rfl, rfl⟩, ?_, ?_⟩
  · intro leases returning
    exact ⟨⟨{ w with trace := w.trace ++ [Event.rlock, Event.runlock] }, leases, returning⟩,
      by simp [step, size, hp], rfl, rfl, rfl⟩
  · intro addr creator deleter
    exact ⟨_, by simp only [size, World.init, CompressionContextPool.new]; rfl⟩

theorem size_counts_idle_witness :
    demoWorld.pool = some demoPool ∧
    ∃ w1, size demoWorld = .ok (2, w1) ∧ w1.pool = demoWorld.pool ∧
      w1.trace = [Event.rlock, Event.runlock] :=
  ⟨rfl,
    let ⟨w1, h1, _, h3, _, _, h6⟩ := (size_counts_idle demoWorld demoPool rfl).1
    ⟨w1, h1, h3, h6⟩⟩

/-- C10. After every sequence of `get`, `size` and Lease ends on a newly
constructed pool that stays alive, no Deleter has been invoked, and the end of
a Lease in such a state pushes its resource onto the idle collection and
invokes no Deleter.  More generally such a sequence adds no Deleter invocation
from any state of a live pool whose Leases are non-null and refer to it. -/
theorem live_pool_never_disposes (addr : Nat) (creator : Creator) (deleter : Deleter)
    (ops : List Op) (hl : liveOps ops) :
    ∃ s, run (System.init addr creator deleter) ops = .ok s ∧
      disposals s.world.trace = 0 ∧
      (∀ d t, Event.deleter d t ∉ s.world.trace) ∧
      (∀ i r, s.leases[i]? = some r →
        ∃ s1, step s (Op.release i) = .ok s1 ∧
          idle s1.world = idle s.world ++ [⟨r.ptr, r.deleter.deleter_⟩] ∧
          s1.world.trace = s.world.trace ++ [Event.wlock, Event.wunlock] ∧
          disposals s1.world.trace = 0) ∧
      (∀ s0, Inv s0 → ∃ s1, run s0 ops = .ok s1 ∧
        disposals s1.world.trace = disposals s0.world.trace) := by
  obtain ⟨s, hrun, hinv, hdisp, _⟩ :=
    run_kept ops (System.init addr creator deleter) (init_inv addr creator deleter) hl
  have h0 : disposals s.world.trace = 0 := by
    rw [hdisp]
    simp [disposals, System.init, World.init]
  refine ⟨s, hrun, h0, not_mem_of_disposals_eq_zero _ h0, ?_, ?_⟩
  rotate_left
  · intro s0 h
    obtain ⟨s1, h1, _, h2, _⟩ := run_kept ops s0 h hl
    exact ⟨s1, h1, h2⟩
  intro i r hi
  obtain ⟨⟨p, hp⟩, _, hout⟩ := hinv
  have hr : r ∈ outstanding s := by
    simp only [outstanding, List.mem_append]
    exact Or.inl (mem_of_getElem?_eq _ _ _ hi)
  obtain ⟨hnn, hb⟩ := hout r hr
  obtain ⟨t, ht⟩ := Option.ne_none_iff_exists'.mp hnn
  refine ⟨_, release_step_eq s i r p t hi hp ht hb, ?_, rfl, ?_⟩
  · simp [idle, hp, ht]
  · simp only [disposals_append, h0]
    simp [disposals]

theorem live_pool_never_disposes_witness :
    liveOps [Op.get, Op.get, Op.release 1, Op.size, Op.get, Op.release 0] ∧
    ∃ s, run (System.init 1 (fun n => some (100 + n)) 3)
        [Op.get, Op.get, Op.release 1, Op.size, Op.get, Op.release 0] = .ok s ∧
      disposals s.world.trace = 0 ∧
      (∀ d t, Event.deleter d t ∉ s.world.trace) :=
  ⟨by decide,
    let ⟨s, h1, h2, h3, _⟩ := live_pool_never_disposes 1 (fun n => some (100 + n)) 3
      [Op.get, Op.get, Op.release 1, Op.size, Op.get, Op.release 0] (by decide)
    ⟨s, h1, h2, h3⟩⟩

/-! ## Lock discipline and teardown: auxiliary facts -/

theorem heldAfter_append (a b : List Event) (held : Bool) :
    heldAfter held (a ++ b) = heldAfter (heldAfter held a) b := by
  induction a generalizing held with
  | nil => rfl
  | cons e a ih => cases e <;> simp [heldAfter, ih]

theorem deleterUnderLock_append (a b : List Event) (held : Bool) :
    deleterUnderLock held (a ++ b) =
      (deleterUnderLock held a || deleterUnderLock (heldAfter held a) b) := by
  induction a generalizing held with
  | nil => simp [deleterUnderLock, heldAfter]
  | cons e a ih => cases e <;> simp [deleterUnderLock, heldAfter, ih, Bool.or_assoc]

theorem creatorOutsideLock_append (a b : List Event) (held : Bool) :
    creatorOutsideLock held (a ++ b) =
      (creatorOutsideLock held a || creatorOutsideLock (heldAfter held a) b) := by
  induction a generalizing held with
  | nil => simp [creatorOutsideLock, heldAfter]
  | cons e a ih => cases e <;> simp [creatorOutsideLock, heldAfter, ih, Bool.or_assoc]

theorem creatorUnderLock_append (a b : List Event) (held : Bool) :
    creatorUnderLock held (a ++ b) =
      (creatorUnderLock held a || creatorUnderLock (heldAfter held a) b) := by
  induction a generalizing held with
  | nil => simp [creatorUnderLock, heldAfter]
  | cons e a ih => cases e <;> simp [creatorUnderLock, heldAfter, ih, Bool.or_assoc]

theorem WellLocked.append {a b : List Event} (ha : WellLocked a) (hb : WellLocked b) :
    WellLocked (a ++ b) := by
  obtain ⟨ha1, ha2, ha3⟩ := ha
  obtain ⟨hb1, hb2, hb3⟩ := hb
  refine ⟨?_, ?_, ?_⟩
  · rw [heldAfter_append, ha1, hb1]
  · rw [deleterUnderLock_append, ha1, ha2, hb2]; rfl
  · rw [creatorOutsideLock_append, ha1, ha3, hb3]; rfl

theorem wellLocked_nil : WellLocked [] := ⟨rfl, rfl, rfl⟩

theorem foldl_destroy_eq (stack : List InternalRef) (tr : List Event) :
    stack.foldl (fun tr e => e.destroy tr) tr = tr ++ teardownEvents stack := by
  induction stack generalizing tr with
  | nil => simp [teardownEvents]
  | cons e stack ih =>
    simp only [List.foldl_cons, ih]
    cases he : e.ptr with
    | none => simp [InternalRef.destroy, teardownEvents, he]
    | some t => simp [InternalRef.destroy, teardownEvents, he]

theorem teardownEvents_wellLocked (stack : List InternalRef) :
    WellLocked (teardownEvents stack) := by
  induction stack with
  | nil => exact wellLocked_nil
  | cons e stack ih =>
    cases he : e.ptr with
    | none =>
      have h : teardownEvents (e :: stack) = teardownEvents stack := by
        simp [teardownEvents, he]
      rw [h]
      exact ih
    | some t =>
      have h : teardownEvents (e :: stack) =
          [Event.deleter e.deleter t] ++ teardownEvents stack := by
        simp [teardownEvents, he]
      rw [h]
      exact WellLocked.append ⟨rfl, rfl, rfl⟩ ih

/-- The events one end of a Lease appends: none, a locked push, or one Deleter
invocation with the lock free. -/
theorem destroy_trace (r : Ref) (w w1 : World) (h : r.destroy w = .ok w1) :
    ∃ d, w1.trace = w.trace ++ d ∧ WellLocked d := by
  unfold Ref.destroy at h
  cases hr : r.ptr with
  | none =>
    simp only [hr, Except.ok.injEq] at h
    subst h
    exact ⟨[], by simp, wellLocked_nil⟩
  | some t =>
    simp only [hr, ReturnToPoolDeleter.call] at h
    cases hb : r.deleter.pool_ with
    | none =>
      simp only [hb, InternalRef.destroy, Except.ok.injEq] at h
      subst h
      exact ⟨[Event.deleter r.deleter.deleter_ t], rfl, rfl, rfl, rfl⟩
    | some a =>
      simp only [hb, add] at h
      by_cases ha : a = w.addr
      · cases hp : w.pool with
        | none => simp [ha, hp] at h
        | some p =>
          simp only [ha, hp, if_true, Except.ok.injEq] at h
          subst h
          exact ⟨[Event.wlock, Event.wunlock], rfl, rfl, rfl, rfl⟩
      · simp [ha] at h

theorem releaseEnd_trace (s s1 : System) (j : Nat) (h : releaseEnd s j = .ok s1) :
    ∃ d, s1.world.trace = s.world.trace ++ d ∧ WellLocked d := by
  unfold releaseEnd at h
  cases hl : s.returning[j]? with
  | none =>
    simp only [hl, Except.ok.injEq] at h
    subst h
    exact ⟨[], by simp, wellLocked_nil⟩
  | some r =>
    simp only [hl] at h
    cases hd : r.destroy s.world with
    | error f => simp [hd] at h
    | ok w =>
      simp only [hd, Except.ok.injEq] at h
      subst h
      exact destroy_trace r s.world w hd

theorem releaseBegin_world (s : System) (i : Nat) : (releaseBegin s i).world = s.world := by
  unfold releaseBegin
  cases s.leases[i]? <;> rfl

/-- Every operation that returns appends a stretch of events that follows the
lock discipline. -/
theorem step_trace (s s1 : System) (op : Op) (h : step s op = .ok s1) :
    ∃ d, s1.world.trace = s.world.trace ++ d ∧ WellLocked d := by
  cases op with
  | get =>
    simp only [step] at h
    cases hp : s.world.pool with
    | none => simp [get, hp] at h
    | some p =>
      cases hl : p.stack_.getLast? with
      | none =>
        cases hc : p.creator_ s.world.creatorCalls with
        | none =>
          simp only [get, hp, hl, hc, Except.ok.injEq] at h
          subst h
          exact ⟨[Event.wlock, Event.creator none, Event.wunlock], rfl, rfl, rfl, rfl⟩
        | some a =>
          simp only [get, hp, hl, hc, Except.ok.injEq] at h
          subst h
          exact ⟨[Event.wlock, Event.creator (some a), Event.wunlock], rfl, rfl, rfl, rfl⟩
      | some e =>
        simp only [get, hp, hl, Except.ok.injEq] at h
        subst h
        exact ⟨[Event.wlock, Event.wunlock], rfl, rfl, rfl, rfl⟩
  | release i =>
    simp only [step] at h
    cases hl : s.leases[i]? with
    | none =>
      simp only [hl, Except.ok.injEq] at h
      subst h
      exact ⟨[], by simp, wellLocked_nil⟩
    | some r =>
      simp only [hl] at h
      have h1 := releaseEnd_trace _ _ _ h
      rw [releaseBegin_world] at h1
      exact h1
  | releaseBegin i =>
    simp only [step, Except.ok.injEq] at h
    subst h
    exact ⟨[], by simp [releaseBegin_world], wellLocked_nil⟩
  | releaseEnd j => exact releaseEnd_trace s s1 j h
  | size =>
    simp only [step] at h
    cases hp : s.world.pool with
    | none => simp [size, hp] at h
    | some p =>
      simp only [size, hp, Except.ok.injEq] at h
      subst h
      exact ⟨[Event.rlock, Event.runlock], rfl, rfl, rfl, rfl⟩
  | destroy =>
    simp only [step] at h
    cases hp : s.world.pool with
    | none => simp [destroyPool, hp] at h
    | some p =>
      simp only [destroyPool, hp, Except.ok.injEq] at h
      subst h
      exact ⟨teardownEvents p.stack_, foldl_destroy_eq _ _, teardownEvents_wellLocked _⟩

theorem run_wellLocked (ops : List Op) :
    ∀ s s1 : System, WellLocked s.world.trace → run s ops = .ok s1 →
      WellLocked s1.world.trace := by
  induction ops with
  | nil =>
    intro s s1 hw h
    simp only [run, Except.ok.injEq] at h
    subst h
    exact hw
  | cons op ops ih =>
    intro s s1 hw h
    simp only [run] at h
    cases hs : step s op with
    | error f => simp [hs] at h
    | ok s2 =>
      simp only [hs] at h
      obtain ⟨d, hd, hwd⟩ := step_trace s s2 op hs
      exact ih s2 s1 (hd ▸ hw.append hwd) h

theorem get_deleterInv (d : Deleter) (s s1 : System) (hd : DeleterInv d s)
    (h : step s Op.get = .ok s1) : DeleterInv d s1 := by
  obtain ⟨hpd, hidle, hout⟩ := hd
  simp only [step] at h
  cases hp : s.world.pool with
  | none => simp [get, hp] at h
  | some p =>
    have hdp := hpd p hp
    cases hl : p.stack_.getLast? with
    | none =>
      cases hc : p.creator_ s.world.creatorCalls with
      | none =>
        simp only [get, hp, hl, hc, Except.ok.injEq] at h
        subst h
        refine ⟨fun q hq => hpd q (by simpa [hp] using hq), ?_, ?_⟩
        · simpa [idle, hp] using hidle
        · simpa [outstanding] using hout
      | some a =>
        simp only [get, hp, hl, hc, Except.ok.injEq] at h
        subst h
        refine ⟨fun q hq => hpd q (by simpa [hp] using hq), ?_, ?_⟩
        · simpa [idle, hp] using hidle
        · intro r hr
          simp only [outstanding, List.mem_append, List.mem_singleton] at hr
          rcases hr with (hr | hr) | hr
          · exact hout r (by simp [outstanding, hr])
          · subst hr; exact hdp
          · exact hout r (by simp [outstanding, hr])
    | some e =>
      simp only [get, hp, hl, Except.ok.injEq] at h
      subst h
      refine ⟨?_, ?_, ?_⟩
      · intro q hq
        simp only [Option.some.injEq] at hq
        subst hq
        exact hdp
      · intro x hx
        apply hidle x
        simp only [idle] at hx
        simp only [idle, hp]
        exact List.mem_of_mem_dropLast hx
      · intro r hr
        simp only [outstanding, List.mem_append, List.mem_singleton] at hr
        rcases hr with (hr | hr) | hr
        · exact hout r (by simp [outstanding, hr])
        · subst hr; exact hdp
        · exact hout r (by simp [outstanding, hr])

theorem releaseBegin_deleterInv (d : Deleter) (s : System) (i : Nat)
    (hd : DeleterInv d s) : DeleterInv d (releaseBegin s i) := by
  obtain ⟨hpd, hidle, hout⟩ := hd
  unfold releaseBegin
  cases hl : s.leases[i]? with
  | none => exact ⟨hpd, hidle, hout⟩
  | some r =>
    refine ⟨hpd, hidle, ?_⟩
    intro x hx
    apply hout x
    simp only [outstanding, List.mem_append, List.mem_singleton] at hx ⊢
    rcases hx with hx | hx | hx
    · exact Or.inl (mem_of_mem_eraseIdx _ _ _ hx)
    · exact Or.inr hx
    · subst hx; exact Or.inl (mem_of_getElem?_eq _ _ _ hl)

theorem releaseEnd_deleterInv (d : Deleter) (s s1 : System) (j : Nat) (hi : Inv s)
    (hd : DeleterInv d s) (h : releaseEnd s j = .ok s1) : DeleterInv d s1 := by
  obtain ⟨⟨p, hp⟩, _, hio⟩ := hi
  obtain ⟨hpd, hidle, hout⟩ := hd
  unfold releaseEnd at h
  cases hl : s.returning[j]? with
  | none =>
    simp only [hl, Except.ok.injEq] at h
    subst h
    exact ⟨hpd, hidle, hout⟩
  | some r =>
    have hr : r ∈ outstanding s := by
      simp only [outstanding, List.mem_append]
      exact Or.inr (mem_of_getElem?_eq _ _ _ hl)
    obtain ⟨hnn, hb⟩ := hio r hr
    obtain ⟨t, ht⟩ := Option.ne_none_iff_exists'.mp hnn
    simp only [hl, destroy_of_live s.world p r t hp ht hb, Except.ok.injEq] at h
    subst h
    refine ⟨?_, ?_, ?_⟩
    · intro q hq
      simp only [Option.some.injEq] at hq
      subst hq
      exact hpd p hp
    · intro x hx
      simp only [idle, List.mem_append, List.mem_singleton] at hx
      rcases hx with hx | hx
      · exact hidle x (by simpa [idle, hp] using hx)
      · subst hx; exact hout r hr
    · intro x hx
      apply hout x
      simp only [outstanding, List.mem_append] at hx ⊢
      rcases hx with hx | hx
      · exact Or.inl hx
      · exact Or.inr (mem_of_mem_eraseIdx _ _ _ hx)

theorem step_deleterInv (d : Deleter) (s s1 : System) (op : Op) (hi : Inv s)
    (hd : DeleterInv d s) (hop : op ≠ Op.destroy) (h : step s op = .ok s1) :
    DeleterInv d s1 := by
  cases op with
  | get => exact get_deleterInv d s s1 hd h
  | release i =>
    simp only [step] at h
    cases hl : s.leases[i]? with
    | none =>
      simp only [hl, Except.ok.injEq] at h
      subst h
      exact hd
    | some r =>
      simp only [hl] at h
      exact releaseEnd_deleterInv d _ s1 _ (releaseBegin_kept s i hi).1
        (releaseBegin_deleterInv d s i hd) h
  | releaseBegin i =>
    simp only [step, Except.ok.injEq] at h
    subst h
    exact releaseBegin_deleterInv d s i hd
  | releaseEnd j => exact releaseEnd_deleterInv d s s1 j hi hd h
  | size =>
    obtain ⟨hpd, hidle, hout⟩ := hd
    simp only [step] at h
    cases hp : s.world.pool with
    | none => simp [size, hp] at h
    | some p =>
      simp only [size, hp, Except.ok.injEq] at h
      subst h
      refine ⟨fun q hq => hpd q (by simpa [hp] using hq), ?_, ?_⟩
      · simpa [idle, hp] using hidle
      · simpa [outstanding] using hout
  | destroy => exact absurd rfl hop

theorem run_deleterInv (d : Deleter) (ops : List Op) :
    ∀ s s1 : System, Inv s → DeleterInv d s → liveOps ops → run s ops = .ok s1 →
      DeleterInv d s1 := by
  induction ops with
  | nil =>
    intro s s1 _ hd _ h
    simp only [run, Except.ok.injEq] at h
    subst h
    exact hd
  | cons op ops ih =>
    intro s s1 hi hd hl h
    have hop : op ≠ Op.destroy := by
      intro he
      apply hl
      simp [he]
    have hl1 : liveOps ops := by
      intro he
      apply hl
      simp [he]
    obtain ⟨s2, hstep, hkept, _⟩ := step_kept s op hi hop
    simp only [run, hstep] at h
    exact ih s2 s1 hkept.1 (step_deleterInv d s s2 op hi hd hop hstep) hl1 h

theorem init_deleterInv (addr : Nat) (creator : Creator) (deleter : Deleter) :
    DeleterInv deleter (System.init addr creator deleter) := by
  refine ⟨?_, ?_, ?_⟩
  · intro p hp
    simp only [System.init, World.init, Option.some.injEq] at hp
    subst hp
    rfl
  · intro e he
    simp [idle, System.init, World.init, CompressionContextPool.new] at he
  · intro r hr
    simp [outstanding, System.init] at hr

theorem map_ptr_eq_map_some (st : List InternalRef) (h : ∀ e ∈ st, e.ptr ≠ none) :
    st.map InternalRef.ptr = (st.filterMap InternalRef.ptr).map some := by
  induction st with
  | nil => rfl
  | cons e st ih =>
    have h1 := ih (fun x hx => h x (List.mem_cons_of_mem _ hx))
    obtain ⟨t, ht⟩ := Option.ne_none_iff_exists'.mp (h e (List.mem_cons_self _ _))
    simp [List.filterMap_cons, ht, h1]

theorem teardownEvents_eq_map (d : Deleter) (st : List InternalRef)
    (h : ∀ e ∈ st, e.deleter = d) :
    teardownEvents st = (st.filterMap InternalRef.ptr).map (Event.deleter d) := by
  induction st with
  | nil => rfl
  | cons e st ih =>
    have h1 := ih (fun x hx => h x (List.mem_cons_of_mem _ hx))
    have h2 := h e (List.mem_cons_self _ _)
    simp only [teardownEvents] at h1 ⊢
    cases he : e.ptr with
    | none => simp [List.filterMap_cons, he, h1]
    | some t => simp [List.filterMap_cons, he, h1, h2]

theorem disposals_map_deleter (d : Deleter) (ts : List Nat) :
    disposals (ts.map (Event.deleter d)) = ts.length := by
  induction ts with
  | nil => rfl
  | cons t ts ih =>
    simp only [disposals] at ih ⊢
    simp [List.countP_cons, ih]

/-- On any live pool whose last idle entry wraps `t`: `get`, then the end of
the `Ref` it returned. -/
theorem get_then_destroy (w : World) (p : CompressionContextPool) (rest : List InternalRef)
    (e : InternalRef) (t : Nat) (hp : w.pool = some p) (hs : p.stack_ = rest ++ [e])
    (he : e.ptr = some t) :
    ∃ w1, get w = .ok (GetResult.ref ⟨e.ptr, ⟨some w.addr, p.deleter_⟩⟩, w1) ∧
      (⟨e.ptr, ⟨some w.addr, p.deleter_⟩⟩ : Ref).destroy w1 = .ok
        { w with pool := some { p with stack_ := rest ++ [⟨some t, p.deleter_⟩] },
                 trace := w.trace ++
                   [Event.wlock, Event.wunlock, Event.wlock, Event.wunlock] } := by
  refine ⟨_, get_of_back w p rest e hp hs, ?_⟩
  have h := destroy_of_live
    { w with pool := some { p with stack_ := rest },
             trace := w.trace ++ [Event.wlock, Event.wunlock] }
    { p with stack_ := rest } ⟨e.ptr, ⟨some w.addr, p.deleter_⟩⟩ t rfl he rfl
  rw [h]
  simp

theorem get_bad_alloc_inv (w w1 : World) (h : get w = .ok (GetResult.bad_alloc, w1)) :
    w1.pool = w.pool ∧
      w1.trace = w.trace ++ [Event.wlock, Event.creator none, Event.wunlock] := by
  cases hp : w.pool with
  | none => simp [get, hp] at h
  | some p =>
    cases hl : p.stack_.getLast? with
    | none =>
      cases hc : p.creator_ w.creatorCalls with
      | none =>
        simp only [get, hp, hl, hc, Except.ok.injEq, Prod.mk.injEq, true_and] at h
        subst h
        exact ⟨hp.symm ▸ rfl, rfl⟩
      | some a => simp [get, hp, hl, hc] at h
    | some e => simp [get, hp, hl] at h

/-! ## The claims, continued -/

/-- C11, as stated, fails: on a newly constructed pool `get` takes the
exclusive lock on line 61, invokes the Creator on line 63 and drops the lock
only on return, so the Creator is invoked while the lock is held. -/
theorem creator_under_lock_counterexample :
    ∃ r w1, get (World.init 1 (fun n => some (100 + n)) 3) = .ok (GetResult.ref r, w1) ∧
      w1.trace = [Event.wlock, Event.creator (some 100), Event.wunlock] ∧
      creatorUnderLock false w1.trace = true ∧
      creatorOutsideLock false w1.trace = false :=
  ⟨_, _, rfl, rfl, rfl, rfl⟩

/-- C11, amended.  In every run from a newly constructed pool the exclusive
lock is free between operations, no Deleter is ever invoked while it is held,
and every invocation of the Creator happens while it is held: `get` takes the
lock on entry and keeps it until it returns or throws, so on an empty idle
collection the Creator runs under the lock.  On the reuse path of `get` and in
the `add` of a Lease end the lock is held for the pop or the push only. -/
theorem lock_discipline (addr : Nat) (creator : Creator) (deleter : Deleter)
    (ops : List Op) (s : System)
    (h : run (System.init addr creator deleter) ops = .ok s) :
    (heldAfter false s.world.trace = false ∧
      deleterUnderLock false s.world.trace = false ∧
      creatorOutsideLock false s.world.trace = false) ∧
    (∀ w p, w.pool = some p → p.stack_ = [] →
      ∃ res w1, get w = .ok (res, w1) ∧
        w1.trace = w.trace ++
          [Event.wlock, Event.creator (p.creator_ w.creatorCalls), Event.wunlock]) ∧
    (∀ w p, w.pool = some p → p.stack_ ≠ [] →
      ∃ res w1, get w = .ok (res, w1) ∧
        w1.trace = w.trace ++ [Event.wlock, Event.wunlock]) ∧
    (∀ (w : World) (p : CompressionContextPool) (r : Ref) (t : Nat),
      w.pool = some p → r.ptr = some t → r.deleter.pool_ = some w.addr →
      ∃ w1, r.destroy w = .ok w1 ∧
        w1.trace = w.trace ++ [Event.wlock, Event.wunlock]) := by
  refine ⟨run_wellLocked ops _ s wellLocked_nil h, ?_, ?_, ?_⟩
  · intro w p hp hs
    cases hc : p.creator_ w.creatorCalls with
    | none => exact ⟨_, _, get_of_empty_none w p hp hs hc, rfl⟩
    | some a => exact ⟨_, _, get_of_empty_some w p a hp hs hc, rfl⟩
  · intro w p hp hne
    have hl : p.stack_.getLast? = some (p.stack_.getLast hne) :=
      List.getLast?_eq_getLast p.stack_ hne
    exact ⟨_, _, get_of_back w p _ _ hp (stack_eq_dropLast_append p.stack_ _ hl), rfl⟩
  · intro w p r t hp ht hb
    exact ⟨_, destroy_of_live w p r t hp ht hb, rfl⟩

theorem lock_discipline_witness :
    (∃ s, run (System.init 1 (fun n => some (100 + n)) 3)
        [Op.get, Op.get, Op.release 0, Op.get, Op.size, Op.destroy] = .ok s ∧
      heldAfter false s.world.trace = false ∧
      deleterUnderLock false s.world.trace = false ∧
      creatorOutsideLock false s.world.trace = false) :=
  ⟨_, rfl,
    (lock_discipline 1 (fun n => some (100 + n)) 3
      [Op.get, Op.get, Op.release 0, Op.get, Op.size, Op.destroy] _ rfl).1⟩

/-- C12. In every state reached from a newly constructed pool that has stayed
alive, destroying the pool invokes the Deleter of the pool once for each entry
of the idle collection, on the resource of that entry, and invokes nothing
else; the Leases are left as they are.  When the Creator never returns a
pointer that is idle or wrapped by a Lease, the disposed resources are pairwise
distinct and none of them is wrapped by a Lease. -/
theorem teardown_disposes_idle (addr : Nat) (creator : Creator) (deleter : Deleter)
    (ops : List Op) (hl : liveOps ops) :
    ∃ (s s1 : System) (ts : List Nat), run (System.init addr creator deleter) ops = .ok s ∧
      step s Op.destroy = .ok s1 ∧
      (idle s.world).map InternalRef.ptr = ts.map some ∧
      s1.world.trace = s.world.trace ++ ts.map (Event.deleter deleter) ∧
      disposals s.world.trace = 0 ∧
      disposals s1.world.trace = (idle s.world).length ∧
      s1.world.pool = none ∧ s1.leases = s.leases ∧ s1.returning = s.returning ∧
      (freshRun (System.init addr creator deleter) ops = true →
        ts.Nodup ∧ ∀ r ∈ outstanding s, ∀ t, r.ptr = some t → t ∉ ts) := by
  obtain ⟨s, hrun, hinv, hdisp, _, _, _, hnodup⟩ :=
    run_kept ops (System.init addr creator deleter) (init_inv addr creator deleter) hl
  have hdel := run_deleterInv deleter ops _ s (init_inv addr creator deleter)
    (init_deleterInv addr creator deleter) hl hrun
  obtain ⟨⟨p, hp⟩, hidle, _⟩ := hinv
  have hi : idle s.world = p.stack_ := by simp [idle, hp]
  have h0 : disposals s.world.trace = 0 := by
    rw [hdisp]
    simp [disposals, System.init, World.init]
  have hmap := map_ptr_eq_map_some p.stack_ (hi ▸ hidle)
  have hev := teardownEvents_eq_map deleter p.stack_ (hi ▸ hdel.2.1)
  have hlen : (p.stack_.filterMap InternalRef.ptr).length = p.stack_.length := by
    have := congrArg List.length hmap
    simpa using this.symm
  refine ⟨s,
    { s with world :=
        { s.world with
          pool := none
          trace := p.stack_.foldl (fun tr e => e.destroy tr) s.world.trace } },
    p.stack_.filterMap InternalRef.ptr, hrun, ?_, ?_, ?_, h0, ?_, rfl, rfl, rfl, ?_⟩
  · simp [step, destroyPool, hp]
  · rw [hi]
    exact hmap
  · simp only [foldl_destroy_eq, hev]
  · simp only [foldl_destroy_eq, hev, disposals_append, disposals_map_deleter, h0, hi, hlen]
    omega
  · intro hf
    have h1 : (owned s).Nodup := hnodup hf (by
      simp [owned, outstanding, idle, System.init, World.init, CompressionContextPool.new])
    simp only [owned, hi, hmap] at h1
    obtain ⟨_, h3, h4⟩ := List.nodup_append.mp h1
    refine ⟨List.Nodup.of_map _ h3, ?_⟩
    intro r hr t ht hmem
    exact h4 (List.mem_map.mpr ⟨r, hr, ht⟩) (List.mem_map_of_mem some hmem)

theorem teardown_disposes_idle_witness :
    (liveOps [Op.get, Op.get, Op.get, Op.release 0, Op.release 1] ∧
      freshRun (System.init 1 (fun n => some (100 + n)) 3)
        [Op.get, Op.get, Op.get, Op.release 0, Op.release 1] = true) ∧
    ∃ (s s1 : System) (ts : List Nat), run (System.init 1 (fun n => some (100 + n)) 3)
        [Op.get, Op.get, Op.get, Op.release 0, Op.release 1] = .ok s ∧
      step s Op.destroy = .ok s1 ∧
      (idle s.world).map InternalRef.ptr = ts.map some ∧
      s1.world.trace = s.world.trace ++ ts.map (Event.deleter 3) ∧
      disposals s.world.trace = 0 ∧
      disposals s1.world.trace = (idle s.world).length ∧
      s1.world.pool = none ∧ s1.leases = s.leases ∧ s1.returning = s.returning ∧
      (freshRun (System.init 1 (fun n => some (100 + n)) 3)
          [Op.get, Op.get, Op.get, Op.release 0, Op.release 1] = true →
        ts.Nodup ∧ ∀ r ∈ outstanding s, ∀ t, r.ptr = some t → t ∉ ts) :=
  ⟨⟨by decide, by decide⟩, teardown_disposes_idle 1 (fun n => some (100 + n)) 3
    [Op.get, Op.get, Op.get, Op.release 0, Op.release 1] (by decide)⟩

/-- C13. The idle collection is last in, first out.  On a live pool, the end of
a Lease that wraps `t` followed at once by `get` returns a `Ref` that wraps the
same `t`, without any invocation of the Creator, and leaves the pool as it was
before the two calls.  In general `get` on a non-empty idle collection returns
its last entry, which is the resource released most recently, and leaves the
other entries as they are, in their order. -/
theorem idle_is_lifo (w : World) (p : CompressionContextPool) (r : Ref) (t : Nat)
    (hp : w.pool = some p) (ht : r.ptr = some t) (hb : r.deleter.pool_ = some w.addr) :
    (∃ w1 w2, r.destroy w = .ok w1 ∧
      get w1 = .ok (GetResult.ref ⟨some t, ⟨some w.addr, p.deleter_⟩⟩, w2) ∧
      w2.pool = some p ∧ w2.creatorCalls = w.creatorCalls ∧
      w2.trace = w.trace ++ [Event.wlock, Event.wunlock, Event.wlock, Event.wunlock]) ∧
    (∀ rest e, p.stack_ = rest ++ [e] →
      ∃ w1, get w = .ok (GetResult.ref ⟨e.ptr, ⟨some w.addr, p.deleter_⟩⟩, w1) ∧
        w1.pool = some { p with stack_ := rest } ∧ w1.creatorCalls = w.creatorCalls) ∧
    (∀ (r0 : Ref) (t0 : Nat), r0.ptr = some t0 → r0.deleter.pool_ = some w.addr →
      ∃ w1 w2 w3, r0.destroy w = .ok w1 ∧ r.destroy w1 = .ok w2 ∧
        get w2 = .ok (GetResult.ref ⟨some t, ⟨some w.addr, p.deleter_⟩⟩, w3) ∧
        w3.pool = some { p with stack_ := p.stack_ ++ [⟨some t0, r0.deleter.deleter_⟩] } ∧
        w3.creatorCalls = w.creatorCalls) := by
  refine ⟨?_, ?_, ?_⟩
  · have h1 := destroy_of_live w p r t hp ht hb
    have h2 := get_of_back
      { w with pool := some { p with stack_ := p.stack_ ++ [⟨some t, r.deleter.deleter_⟩] },
               trace := w.trace ++ [Event.wlock, Event.wunlock] }
      { p with stack_ := p.stack_ ++ [⟨some t, r.deleter.deleter_⟩] }
      p.stack_ ⟨some t, r.deleter.deleter_⟩ rfl rfl
    exact ⟨_, _, h1, h2, rfl, rfl, by simp⟩
  · intro rest e hs
    exact ⟨_, get_of_back w p rest e hp hs, rfl, rfl⟩
  · intro r0 t0 ht0 hb0
    have h1 := destroy_of_live w p r0 t0 hp ht0 hb0
    have h2 := destroy_of_live
      { w with pool := some { p with stack_ := p.stack_ ++ [⟨some t0, r0.deleter.deleter_⟩] },
               trace := w.trace ++ [Event.wlock, Event.wunlock] }
      { p with stack_ := p.stack_ ++ [⟨some t0, r0.deleter.deleter_⟩] } r t rfl ht hb
    have h3 := get_of_back
      { w with
          pool := some { p with stack_ :=
            (p.stack_ ++ [⟨some t0, r0.deleter.deleter_⟩]) ++ [⟨some t, r.deleter.deleter_⟩] },
          trace := (w.trace ++ [Event.wlock, Event.wunlock]) ++ [Event.wlock, Event.wunlock] }
      { p with stack_ :=
          (p.stack_ ++ [⟨some t0, r0.deleter.deleter_⟩]) ++ [⟨some t, r.deleter.deleter_⟩] }
      (p.stack_ ++ [⟨some t0, r0.deleter.deleter_⟩]) ⟨some t, r.deleter.deleter_⟩ rfl rfl
    exact ⟨_, _, _, h1, h2, h3, rfl, rfl⟩

theorem idle_is_lifo_witness :
    (demoWorld.pool = some demoPool ∧ (⟨some 7, ⟨some 1, 3⟩⟩ : Ref).ptr = some 7 ∧
      (⟨some 7, ⟨some 1, 3⟩⟩ : Ref).deleter.pool_ = some demoWorld.addr) ∧
    ∃ w1 w2, (⟨some 7, ⟨some 1, 3⟩⟩ : Ref).destroy demoWorld = .ok w1 ∧
      get w1 = .ok (GetResult.ref ⟨some 7, ⟨some demoWorld.addr, demoPool.deleter_⟩⟩, w2) ∧
      w2.pool = some demoPool ∧ w2.creatorCalls = demoWorld.creatorCalls ∧
      w2.trace = demoWorld.trace ++
        [Event.wlock, Event.wunlock, Event.wlock, Event.wunlock] :=
  ⟨⟨rfl, rfl, rfl⟩,
    (idle_is_lifo demoWorld demoPool ⟨some 7, ⟨some 1, 3⟩⟩ 7 rfl rfl rfl).1⟩

/-- C14. In every state reached from a newly constructed pool by `get`, Lease
ends and `size` while the pool is alive, the number of idle resources plus the
number of Leases equals the number of Creator invocations that returned a
resource.  Hence `size()` is at most that number, and a `get` that throws
changes neither the idle collection, nor the Leases, nor that number. -/
theorem conservation (addr : Nat) (creator : Creator) (deleter : Deleter)
    (ops : List Op) (hl : liveOps ops) :
    ∃ s, run (System.init addr creator deleter) ops = .ok s ∧
      (idle s.world).length + (outstanding s).length =
        successfulCreations s.world.trace ∧
      (∃ n w1, size s.world = .ok (n, w1) ∧ n = (idle s.world).length ∧
        n ≤ successfulCreations s.world.trace) ∧
      (∀ w1, get s.world = .ok (GetResult.bad_alloc, w1) →
        step s Op.get = .ok { s with world := w1 } ∧
        idle w1 = idle s.world ∧
        successfulCreations w1.trace = successfulCreations s.world.trace) := by
  obtain ⟨s, hrun, hinv, _, _, hcons, _, _⟩ :=
    run_kept ops (System.init addr creator deleter) (init_inv addr creator deleter) hl
  have h0 : (outstanding (System.init addr creator deleter)).length = 0 := by
    simp [outstanding, System.init]
  have h1 : (idle (System.init addr creator deleter).world).length = 0 := by
    simp [idle, System.init, World.init, CompressionContextPool.new]
  have h2 : successfulCreations (System.init addr creator deleter).world.trace = 0 := by
    simp [successfulCreations, System.init, World.init]
  rw [h0, h1, h2] at hcons
  obtain ⟨⟨p, hp⟩, _, _⟩ := hinv
  refine ⟨s, hrun, by omega, ?_, ?_⟩
  · refine ⟨p.stack_.length,
      { s.world with trace := s.world.trace ++ [Event.rlock, Event.runlock] }, ?_, ?_, ?_⟩
    · simp [size, hp]
    · simp [idle, hp]
    · have : (idle s.world).length = p.stack_.length := by simp [idle, hp]
      omega
  · intro w1 hg
    obtain ⟨h3, h4⟩ := get_bad_alloc_inv s.world w1 hg
    refine ⟨by simp only [step, hg], ?_, ?_⟩
    · simp only [idle, h3]
    · rw [h4]
      simp [successfulCreations_append, successfulCreations]

theorem conservation_witness :
    liveOps [Op.get, Op.get, Op.release 0, Op.get, Op.releaseBegin 0, Op.get] ∧
    ∃ s, run (System.init 1 (fun n => if n = 2 then none else some (100 + n)) 3)
        [Op.get, Op.get, Op.release 0, Op.get, Op.releaseBegin 0, Op.get] = .ok s ∧
      (idle s.world).length + (outstanding s).length =
        successfulCreations s.world.trace :=
  ⟨by decide,
    let ⟨s, h1, h2, _⟩ := conservation 1 (fun n => if n = 2 then none else some (100 + n)) 3
      [Op.get, Op.get, Op.release 0, Op.get, Op.releaseBegin 0, Op.get] (by decide)
    ⟨s, h1, h2⟩⟩

/-- C15. In every state reached from a newly constructed pool that has stayed
alive and whose idle collection is not empty, `get` followed at once by the end
of the `Ref` it returned gives back the same pool, with the same idle entries
in the same order, and invokes neither the Creator nor a Deleter.  On any live
pool whose last idle entry is not null the two calls give back the same idle
pointers in the same order. -/
theorem get_release_round_trip (addr : Nat) (creator : Creator) (deleter : Deleter)
    (ops : List Op) (hl : liveOps ops) :
    ∃ s, run (System.init addr creator deleter) ops = .ok s ∧
      (idle s.world ≠ [] →
        ∃ r w1 w2, get s.world = .ok (GetResult.ref r, w1) ∧ r.destroy w1 = .ok w2 ∧
          w2.pool = s.world.pool ∧ idle w2 = idle s.world ∧
          w2.creatorCalls = s.world.creatorCalls ∧
          w2.trace = s.world.trace ++
            [Event.wlock, Event.wunlock, Event.wlock, Event.wunlock] ∧
          successfulCreations w2.trace = successfulCreations s.world.trace ∧
          disposals w2.trace = disposals s.world.trace) ∧
      (∀ (w : World) (p : CompressionContextPool) (rest : List InternalRef)
          (e : InternalRef) (t : Nat),
        w.pool = some p → p.stack_ = rest ++ [e] → e.ptr = some t →
        ∃ r w1 w2, get w = .ok (GetResult.ref r, w1) ∧ r.destroy w1 = .ok w2 ∧
          (idle w2).map InternalRef.ptr = (idle w).map InternalRef.ptr ∧
          w2.creatorCalls = w.creatorCalls ∧
          w2.trace = w.trace ++
            [Event.wlock, Event.wunlock, Event.wlock, Event.wunlock]) := by
  obtain ⟨s, hrun, hinv, _⟩ :=
    run_kept ops (System.init addr creator deleter) (init_inv addr creator deleter) hl
  have hdel := run_deleterInv deleter ops _ s (init_inv addr creator deleter)
    (init_deleterInv addr creator deleter) hl hrun
  refine ⟨s, hrun, ?_, ?_⟩
  · intro hne
    obtain ⟨⟨p, hp⟩, hidle, _⟩ := hinv
    have hi : idle s.world = p.stack_ := by simp [idle, hp]
    have hne1 : p.stack_ ≠ [] := hi ▸ hne
    have hl1 : p.stack_.getLast? = some (p.stack_.getLast hne1) :=
      List.getLast?_eq_getLast p.stack_ hne1
    have hs := stack_eq_dropLast_append p.stack_ _ hl1
    have hmem : p.stack_.getLast hne1 ∈ idle s.world := by
      rw [hi]
      exact List.getLast_mem hne1
    obtain ⟨t, ht⟩ := Option.ne_none_iff_exists'.mp (hidle _ hmem)
    have hd : (p.stack_.getLast hne1).deleter = p.deleter_ :=
      (hdel.2.1 _ hmem).trans (hdel.1 p hp).symm
    have he : (⟨some t, p.deleter_⟩ : InternalRef) = p.stack_.getLast hne1 := by
      cases hx : p.stack_.getLast hne1 with
      | mk xp xd =>
        rw [hx] at ht hd
        simp only at ht hd
        rw [ht, hd]
    obtain ⟨w1, hg, hr⟩ := get_then_destroy s.world p _ _ t hp hs ht
    have hpool : ({ p with stack_ := p.stack_.dropLast ++ [⟨some t, p.deleter_⟩] } :
        CompressionContextPool) = p := by
      rw [he, ← hs]
    rw [hpool] at hr
    refine ⟨_, _, _, hg, hr, hp.symm, ?_, rfl, rfl, ?_, ?_⟩
    · simp [idle, hp]
    · simp [successfulCreations_append, successfulCreations]
    · simp [disposals_append, disposals]
  · intro w p rest e t hp hs he
    obtain ⟨w1, hg, hr⟩ := get_then_destroy w p rest e t hp hs he
    refine ⟨_, _, _, hg, hr, ?_, rfl, rfl⟩
    simp [idle, hp, hs, he]

theorem get_release_round_trip_witness :
    liveOps [Op.get, Op.get, Op.release 0, Op.release 0] ∧
    ∃ s, run (System.init 1 (fun n => some (100 + n)) 3)
        [Op.get, Op.get, Op.release 0, Op.release 0] = .ok s ∧
      (idle s.world ≠ [] →
        ∃ r w1 w2, get s.world = .ok (GetResult.ref r, w1) ∧ r.destroy w1 = .ok w2 ∧
          w2.pool = s.world.pool ∧ idle w2 = idle s.world ∧
          w2.creatorCalls = s.world.creatorCalls ∧
          w2.trace = s.world.trace ++
            [Event.wlock, Event.wunlock, Event.wlock, Event.wunlock] ∧
          successfulCreations w2.trace = successfulCreations s.world.trace ∧
          disposals w2.trace = disposals s.world.trace) :=
  ⟨by decide,
    let ⟨s, h1, h2, _⟩ := get_release_round_trip 1 (fun n => some (100 + n)) 3
      [Op.get, Op.get, Op.release 0, Op.release 0] (by decide)
    ⟨s, h1, h2⟩⟩

end folly.compression
